import Mathlib

/-!
Verification of the `bark` Discord-bot module system.

This file gives a shallow embedding, in Lean 4, of the parts of the
repository that the specification talks about:

* `module_manager.py` — the module manager: dependency parsing
  (`_get_module_dependencies`), load-order resolution
  (`_resolve_load_order`, Kahn's algorithm), config bookkeeping
  (`cleanup_module_configs`, `save_module_configs`), enable/disable,
  load/unload, and the file-watcher debounce handler.
* `bot.py` — the `/api/<module>/<action>` Flask route (`module_api`).
* `system_modules/settings.py` — the `toggle_module` branch of
  `SettingsModule.handle_api`.
* `storage.py` — `BarkStorage.set_module_data` / `get_module_data` /
  `delete_module_data` over the `module_data` table, together with a
  model of Python's `json.dumps` / `json.loads` round-trip.

Python strings are modelled as `List Char`; machine-level details that
the claims do not touch (threads, sqlite connections, the Flask object)
are modelled as explicit state.  Every definition is executable.
-/

namespace Bark

/-! ## Python string primitives

Executable models of the Python `str` operations used by
`module_manager.py`: `strip`, `startswith`, `replace`, `split`,
`find`, and `strip(chars)`.  All work on `List Char`. -/

/-- Python `str.strip()` whitespace set (the ASCII part, which is all the
source files use). -/
def isPySpace (c : Char) : Bool :=
  c = ' ' || c = '\t' || c = '\n' || c = '\x0d' || c = '\x0b' || c = '\x0c'

/-- Python `s.strip()`: drop whitespace from both ends. -/
def pstrip (l : List Char) : List Char :=
  ((l.dropWhile isPySpace).reverse.dropWhile isPySpace).reverse

/-- Python `s.strip(chars)`: drop characters in `set` from both ends. -/
def pstripChars (set : List Char) (l : List Char) : List Char :=
  ((l.dropWhile (set.contains ·)).reverse.dropWhile (set.contains ·)).reverse

/-- Fuel-driven core of `removeAll` (kept structural so the kernel can
evaluate it). -/
def removeAllAux (pat : List Char) : Nat → List Char → List Char
  | _, [] => []
  | 0, l => l
  | fuel + 1, c :: cs =>
    if pat.isPrefixOf (c :: cs) then
      removeAllAux pat fuel ((c :: cs).drop pat.length)
    else
      c :: removeAllAux pat fuel cs

/-- Python `s.replace(pat, '')`: remove every (leftmost, non-overlapping)
occurrence of `pat`. -/
def removeAll (pat l : List Char) : List Char :=
  removeAllAux pat l.length l

/-- Python `s.endswith(suffix)`. -/
def pEndsWith (s suffix : String) : Bool :=
  suffix.toList.isSuffixOf s.toList

/-- Python `s[:-n]`. -/
def pDropRight (s : String) (n : Nat) : String :=
  String.mk (s.toList.take (s.toList.length - n))

/-- Python `sub in s` (substring containment). -/
def hasSub (pat : List Char) : List Char → Bool
  | [] => pat.isEmpty
  | c :: cs => pat.isPrefixOf (c :: cs) || hasSub pat cs

/-- Python `s[start:stop]` for `0 ≤ start ≤ stop` (empty when
`stop ≤ start`, as in Python). -/
def pslice (start stop : Nat) (l : List Char) : List Char :=
  (l.drop start).take (stop - start)

/-- The literal `'# DEPENDENCIES:'` marker from
`ModuleManager._get_module_dependencies`. -/
def depMarker : List Char := "# DEPENDENCIES:".toList

/-- The quote characters stripped by `dep.strip('\'"')`. -/
def quoteChars : List Char := ['\'', '"']

/-! ## `ModuleManager._get_module_dependencies` (module_manager.py 115-153)

The source reads the file, splits it into lines and, per stripped line:

* if it starts with `# DEPENDENCIES:`, removes every occurrence of the
  marker (Python `str.replace`), strips, splits on `','` and keeps the
  non-empty stripped pieces;
* otherwise (`elif`), if the line contains `dependencies`, `=` and `[`
  and does not contain `self.dependencies`, takes the text between the
  first `[` and the first `]` (when both exist), splits it on `','` and
  keeps the non-empty pieces stripped of whitespace and quotes.
-/

/-- Dependencies contributed by one raw line of a module file. -/
def lineDeps (rawLine : List Char) : List (List Char) :=
  let line := pstrip rawLine
  if depMarker.isPrefixOf line then
    let deps := pstrip (removeAll depMarker line)
    ((deps.splitOn ',').map pstrip).filter (· ≠ [])
  else if hasSub "dependencies".toList line && hasSub "=".toList line
      && hasSub "[".toList line then
    if hasSub "self.dependencies".toList line then []
    else
      match line.indexOf? '[', line.indexOf? ']' with
      | some s, some e =>
        ((pslice (s + 1) e line).splitOn ',').map
            (fun d => pstripChars quoteChars (pstrip d)) |>.filter (· ≠ [])
      | _, _ => []
  else []

/-- `_get_module_dependencies` applied to file text that was read
successfully. -/
def getModuleDependenciesText (content : List Char) : List (List Char) :=
  (content.splitOn '\n').flatMap lineDeps

/-- `ModuleManager._get_module_dependencies`: `none` models a file that
cannot be read (the `except` branch returns `[]`). -/
def get_module_dependencies (file : Option (List Char)) : List (List Char) :=
  match file with
  | none => []
  | some content => getModuleDependenciesText content

/-! ## `ModuleManager._resolve_load_order` (module_manager.py 155-200)

The source builds `dep_graph` (name ↦ parsed dependency list), counts
`in_degree[m]` by adding 1 for every occurrence of an in-list dependency
of `m`, runs Kahn's algorithm (decrementing each dependent once per
popped module), and finally appends the modules that never reached
in-degree 0 ("circular dependencies … load anyway").

The dependency list of a module is obtained by reading its file; we
abstract that as a function `deps : String → List String` (the
composition of the path lookup with `_get_module_dependencies`).
`in_degree` is a `defaultdict(int)`, modelled as `String → Int` with
default 0.  The final `set(modules_to_load) - set(result)` iterates in
Python's (hash-dependent) set order; we model it as the input order,
which is one of the realizable orders. -/

/-- State of Kahn's algorithm: the work queue (`deque`), the in-degree
table (`defaultdict(int)`), and the output accumulated so far. -/
structure KState where
  queue : List String
  ind : String → Int
  result : List String

/-- The `in_degree` table as built by the first loop of
`_resolve_load_order`: one increment of `in_degree[m]` per occurrence of
an in-list dependency of `m`. -/
def buildInd (deps : String → List String) (list : List String) : String → Int :=
  list.foldl
    (fun ind m =>
      (deps m).foldl
        (fun ind2 d =>
          if list.contains d then fun x => if x = m then ind2 x + 1 else ind2 x
          else ind2)
        ind)
    (fun _ => 0)

/-- One iteration of the inner
`for module_name, dependencies in dep_graph.items()` loop: decrement
`in_degree[module_name]` when `current` is among its dependencies, and
enqueue it when the count reaches 0. -/
def processOne (deps : String → List String) (list : List String)
    (current : String) (s : KState) (m : String) : KState :=
  if (deps m).contains current && list.contains m then
    let newv := s.ind m - 1
    { s with
      ind := fun x => if x = m then newv else s.ind x
      queue := if newv = 0 then s.queue ++ [m] else s.queue }
  else s

/-- The whole inner loop over `dep_graph.items()` (dict insertion order
= `modules_to_load` order). -/
def stepDecs (deps : String → List String) (list : List String)
    (current : String) (s : KState) : KState :=
  list.foldl (processOne deps list current) s

/-- The `while queue:` loop.  Fuel only bounds the iteration count; with
fuel `list.length` the loop always drains the queue (each iteration
appends a fresh in-list name to `result`). -/
def kahnLoop (deps : String → List String) (list : List String) :
    Nat → KState → KState
  | 0, s => s
  | fuel + 1, s =>
    match s.queue with
    | [] => s
    | current :: rest =>
      kahnLoop deps list fuel
        (stepDecs deps list current
          { s with queue := rest, result := s.result ++ [current] })

/-- `ModuleManager._resolve_load_order`. -/
def resolve_load_order (deps : String → List String) (list : List String) :
    List String :=
  let ind0 := buildInd deps list
  let q0 := list.filter (fun m => ind0 m == 0)
  let final := kahnLoop deps list list.length { queue := q0, ind := ind0, result := [] }
  if final.result.length ≠ list.length then
    final.result ++ list.filter (fun m => !final.result.contains m)
  else
    final.result

/-- The initial in-degree of `m`: occurrences of in-list names in its
dependency list (with multiplicity, as the source counts them). -/
def occIn (deps : String → List String) (list : List String) (m : String) : Nat :=
  ((deps m).filter (fun d => list.contains d)).length

/-- All in-list dependencies of `m` already sit in `result`. -/
def DoneDeps (deps : String → List String) (list result : List String)
    (m : String) : Prop :=
  ∀ d ∈ deps m, d ∈ list → d ∈ result

/-- The loop invariant of Kahn's algorithm as implemented by
`_resolve_load_order`. -/
structure KInv (deps : String → List String) (list : List String)
    (s : KState) : Prop where
  nodupRQ : (s.result ++ s.queue).Nodup
  subR : ∀ m ∈ s.result, m ∈ list
  subQ : ∀ m ∈ s.queue, m ∈ list
  indEq : ∀ m ∈ list, s.ind m = (occIn deps list m : Int) -
    ((s.result.filter (fun r => (deps m).contains r)).length : Int)
  zeroIff : ∀ m ∈ list, (m ∈ s.result ∨ m ∈ s.queue) ↔ s.ind m = 0
  queueDone : ∀ q ∈ s.queue, DoneDeps deps list s.result q
  ordered : ∀ m ∈ s.result, ∀ d ∈ deps m, d ∈ list →
    s.result.indexOf d < s.result.indexOf m

/-- A topological order for `list` under the parsed dependency relation:
a permutation of `list` in which every module comes strictly after each
of its in-list dependencies.  The claims' "acyclic" hypothesis is
phrased as the existence of such an order. -/
def IsTopoOrder (deps : String → List String) (list ord : List String) : Prop :=
  ord.Perm list ∧
    ∀ m ∈ list, ∀ d ∈ deps m, d ∈ list → ord.indexOf d < ord.indexOf m

instance (deps : String → List String) (list ord : List String) :
    Decidable (IsTopoOrder deps list ord) := by
  unfold IsTopoOrder; infer_instance

/-! ## JSON values and the `json.dumps` / `json.loads` pair

`storage.py` persists module data as `json.dumps(value)` in a TEXT
column and reads it back with `json.loads`; `module_manager.py`
serializes the config dict the same way.  We model JSON-representable
Python values as `JVal` (floats are out of scope: the repository never
stores one through this interface, and floating point is not shallowly
embeddable) and give an executable serializer following CPython's
defaults (`ensure_ascii=True`, separators `', '` and `': '`) together
with a parser for the grammar the serializer emits. -/

/-- JSON-representable values: `None`, booleans, integers, strings,
lists and string-keyed dicts. -/
inductive JVal where
  | null : JVal
  | bool (b : Bool) : JVal
  | num (n : Int) : JVal
  | str (s : List Char) : JVal
  | arr (elems : List JVal) : JVal
  | obj (fields : List (List Char × JVal)) : JVal

/-- Left brace / right brace (written numerically). -/
def lbrace : Char := Char.ofNat 123

def rbrace : Char := Char.ofNat 125

/-- Decimal digit character. -/
def digitChar (n : Nat) : Char := Char.ofNat (48 + n)

/-- Decimal digits of `n`, most significant first (empty for 0). -/
def natChars (n : Nat) : List Char := ((Nat.digits 10 n).map digitChar).reverse

/-- CPython's serialization of an `int`. -/
def intChars : Int → List Char
  | .ofNat 0 => ['0']
  | .ofNat (n + 1) => natChars (n + 1)
  | .negSucc n => '-' :: natChars (n + 1)

/-- Lower-case hex digit (as emitted by `json.dumps`). -/
def hexDigitChar (n : Nat) : Char :=
  if n < 10 then Char.ofNat (48 + n) else Char.ofNat (87 + n)

/-- Four-digit hex rendering of `n < 0x10000`. -/
def hex4 (n : Nat) : List Char :=
  [hexDigitChar (n / 4096 % 16), hexDigitChar (n / 256 % 16),
   hexDigitChar (n / 16 % 16), hexDigitChar (n % 16)]

/-- `\uXXXX` escape (with a surrogate pair above the BMP), as produced
by `ensure_ascii=True`. -/
def uEsc (n : Nat) : List Char :=
  if n < 0x10000 then '\\' :: 'u' :: hex4 n
  else
    ('\\' :: 'u' :: hex4 (0xd800 + (n - 0x10000) / 1024)) ++
      ('\\' :: 'u' :: hex4 (0xdc00 + (n - 0x10000) % 1024))

/-- Escape one character of a JSON string the way `json.dumps` does. -/
def escChar (c : Char) : List Char :=
  if c = '"' then ['\\', '"']
  else if c = '\\' then ['\\', '\\']
  else if c = '\n' then ['\\', 'n']
  else if c = '\t' then ['\\', 't']
  else if c = '\x0d' then ['\\', 'r']
  else if c = '\x08' then ['\\', 'b']
  else if c = '\x0c' then ['\\', 'f']
  else if c.toNat < 0x20 || 0x7e < c.toNat then uEsc c.toNat
  else [c]

/-- Serialized JSON string (with quotes). -/
def strChars (s : List Char) : List Char :=
  '"' :: s.flatMap escChar ++ ['"']

/-- `json.dumps` with CPython's default separators. -/
def dumpsVal : JVal → List Char
  | .null => "null".toList
  | .bool true => "true".toList
  | .bool false => "false".toList
  | .num n => intChars n
  | .str s => strChars s
  | .arr xs =>
    '[' :: (List.intercalate [',', ' '] (xs.attach.map fun x => dumpsVal x.1)) ++ [']']
  | .obj fs =>
    lbrace ::
      (List.intercalate [',', ' ']
        (fs.attach.map fun f => strChars f.1.1 ++ ':' :: ' ' :: dumpsVal f.1.2)) ++
      [rbrace]
decreasing_by
  · simp_wf
    have h1 := List.sizeOf_lt_of_mem x.2
    have h2 : sizeOf (JVal.arr xs) = 1 + sizeOf xs := JVal.arr.sizeOf_spec xs
    omega
  · simp_wf
    have h1 := List.sizeOf_lt_of_mem f.2
    have h2 : sizeOf (JVal.obj fs) = 1 + sizeOf fs := JVal.obj.sizeOf_spec fs
    have h3 : sizeOf f.1.2 < sizeOf f.1 := by
      obtain ⟨⟨a, b⟩, hf⟩ := f
      simp only []
      have : sizeOf (a, b) = 1 + sizeOf a + sizeOf b := rfl
      omega
    omega

/-- JSON whitespace. -/
def isJsonWs (c : Char) : Bool :=
  c = ' ' || c = '\t' || c = '\n' || c = '\x0d'

def skipWs (l : List Char) : List Char := l.dropWhile isJsonWs

def isDigitCh (c : Char) : Bool := 48 ≤ c.toNat && c.toNat ≤ 57

/-- Hex digit value (both cases accepted, like `json.loads`). -/
def hexVal (c : Char) : Option Nat :=
  if 48 ≤ c.toNat && c.toNat ≤ 57 then some (c.toNat - 48)
  else if 97 ≤ c.toNat && c.toNat ≤ 102 then some (c.toNat - 87)
  else if 65 ≤ c.toNat && c.toNat ≤ 70 then some (c.toNat - 55)
  else none

def hex4Val (c1 c2 c3 c4 : Char) : Option Nat :=
  match hexVal c1, hexVal c2, hexVal c3, hexVal c4 with
  | some h1, some h2, some h3, some h4 => some (((h1 * 16 + h2) * 16 + h3) * 16 + h4)
  | _, _, _, _ => none

/-- Prepend a character to a string-parse result. -/
def consMap (c : Char) (o : Option (List Char × List Char)) :
    Option (List Char × List Char) :=
  o.map fun p => (c :: p.1, p.2)

mutual

/-- Parse the body of a JSON string after the opening quote; returns the
decoded content and the input after the closing quote. -/
def parseStrBody : List Char → Option (List Char × List Char)
  | [] => none
  | c :: rest =>
    if c = '"' then some ([], rest)
    else if c = '\\' then parseEsc rest
    else consMap c (parseStrBody rest)
termination_by l => (l.length, 0)

/-- Decode one backslash escape (the input starts after the `\`). -/
def parseEsc : List Char → Option (List Char × List Char)
  | [] => none
  | e :: rest2 =>
    if e = '"' then consMap '"' (parseStrBody rest2)
    else if e = '\\' then consMap '\\' (parseStrBody rest2)
    else if e = '/' then consMap '/' (parseStrBody rest2)
    else if e = 'n' then consMap '\n' (parseStrBody rest2)
    else if e = 't' then consMap '\t' (parseStrBody rest2)
    else if e = 'r' then consMap '\x0d' (parseStrBody rest2)
    else if e = 'b' then consMap '\x08' (parseStrBody rest2)
    else if e = 'f' then consMap '\x0c' (parseStrBody rest2)
    else if e = 'u' then parseHex16 rest2
    else none
termination_by l => (l.length, 1)

/-- Decode a `\uXXXX` escape (the input starts at the hex digits). -/
def parseHex16 : List Char → Option (List Char × List Char)
  | c1 :: c2 :: c3 :: c4 :: rest3 =>
    match hex4Val c1 c2 c3 c4 with
    | none => none
    | some n =>
      if 0xd800 ≤ n ∧ n ≤ 0xdbff then parseLowSurr n rest3
      else if 0xdc00 ≤ n ∧ n ≤ 0xdfff then none
      else consMap (Char.ofNat n) (parseStrBody rest3)
  | _ => none
termination_by l => (l.length, 1)

/-- Decode the low half of a surrogate pair. -/
def parseLowSurr (hi : Nat) : List Char → Option (List Char × List Char)
  | b1 :: b2 :: d1 :: d2 :: d3 :: d4 :: rest5 =>
    if b1 = '\\' ∧ b2 = 'u' then
      match hex4Val d1 d2 d3 d4 with
      | none => none
      | some n2 =>
        if 0xdc00 ≤ n2 ∧ n2 ≤ 0xdfff then
          consMap (Char.ofNat (0x10000 + (hi - 0xd800) * 1024 + (n2 - 0xdc00)))
            (parseStrBody rest5)
        else none
    else none
  | _ => none
termination_by l => (l.length, 0)

end

/-- Leading run of decimal digits (values), with the remainder. -/
def parseDigits : List Char → List Nat × List Char
  | [] => ([], [])
  | c :: rest =>
    if isDigitCh c then
      let (ds, r) := parseDigits rest
      ((c.toNat - 48) :: ds, r)
    else ([], c :: rest)

/-- Numeric value of a most-significant-first digit list. -/
def digitsVal (ds : List Nat) : Nat := Nat.ofDigits 10 ds.reverse

/-- Recognize a fixed keyword tail (e.g. `ull` after `n`). -/
def expectLit (pat : List Char) (l : List Char) (v : JVal) :
    Option (JVal × List Char) :=
  if pat.isPrefixOf l then some (v, l.drop pat.length) else none

/-- Parse a negative number (the input starts after the `-`). -/
def parseNeg (rest : List Char) : Option (JVal × List Char) :=
  let p := parseDigits rest
  if p.1.isEmpty then none else some (.num (-(digitsVal p.1 : Int)), p.2)

/-- Parse a number starting with digit `c`. -/
def parsePos (c : Char) (rest : List Char) : Option (JVal × List Char) :=
  let p := parseDigits (c :: rest)
  some (.num ((digitsVal p.1 : Nat) : Int), p.2)

mutual

/-- Parse one JSON value (integers, strings, arrays, objects — the
grammar `json.dumps` emits for `JVal`). -/
def parseVal : Nat → List Char → Option (JVal × List Char)
  | 0, _ => none
  | fuel + 1, input =>
    match skipWs input with
    | [] => none
    | c :: rest =>
      if c = 'n' then expectLit "ull".toList rest .null
      else if c = 't' then expectLit "rue".toList rest (.bool true)
      else if c = 'f' then expectLit "alse".toList rest (.bool false)
      else if c = '"' then (parseStrBody rest).map fun p => (.str p.1, p.2)
      else if c = '[' then parseArrBody fuel rest
      else if c = lbrace then parseObjBody fuel rest
      else if c = '-' then parseNeg rest
      else if isDigitCh c then parsePos c rest
      else none
termination_by fuel _ => (fuel, 1)

/-- Parse an array after the `[`. -/
def parseArrBody (fuel : Nat) (rest : List Char) : Option (JVal × List Char) :=
  match skipWs rest with
  | [] => none
  | c :: r =>
    if c = ']' then some (.arr [], r)
    else (parseArrItems fuel rest).map fun p => (.arr p.1, p.2)
termination_by (fuel, 3)

/-- Parse an object after the `{`. -/
def parseObjBody (fuel : Nat) (rest : List Char) : Option (JVal × List Char) :=
  match skipWs rest with
  | [] => none
  | c :: r =>
    if c = rbrace then some (.obj [], r)
    else (parseObjItems fuel rest).map fun p => (.obj p.1, p.2)
termination_by (fuel, 3)

/-- Parse the items of a non-empty array (after the `[`). -/
def parseArrItems : Nat → List Char → Option (List JVal × List Char)
  | 0, _ => none
  | fuel + 1, input =>
    match parseVal fuel input with
    | none => none
    | some (v, r) =>
      match skipWs r with
      | [] => none
      | c :: r2 =>
        if c = ',' then (parseArrItems fuel r2).map fun p => (v :: p.1, p.2)
        else if c = ']' then some ([v], r2)
        else none
termination_by fuel _ => (fuel, 2)

/-- Parse the members of a non-empty object; the input starts right
after the `{` or the member-separating `,`. -/
def parseObjItems : Nat → List Char → Option (List (List Char × JVal) × List Char)
  | 0, _ => none
  | fuel + 1, afterSep =>
    match skipWs afterSep with
    | [] => none
    | c :: r =>
      if c = '"' then
        match parseStrBody r with
        | none => none
        | some (key, r2) =>
          match skipWs r2 with
          | [] => none
          | c2 :: r3 =>
            if c2 = ':' then
              match parseVal fuel r3 with
              | none => none
              | some (v, r4) =>
                match skipWs r4 with
                | [] => none
                | c3 :: r5 =>
                  if c3 = ',' then
                    (parseObjItems fuel r5).map fun p => ((key, v) :: p.1, p.2)
                  else if c3 = rbrace then some ([(key, v)], r5)
                  else none
            else none
      else none
termination_by fuel _ => (fuel, 2)

end

mutual

/-- Fuel needed by `parseVal` to re-read a serialized value. -/
def jweight : JVal → Nat
  | .null => 1
  | .bool _ => 1
  | .num _ => 1
  | .str _ => 1
  | .arr xs => 1 + jweightList xs
  | .obj fs => 1 + jweightFields fs

def jweightList : List JVal → Nat
  | [] => 0
  | x :: xs => 1 + jweight x + jweightList xs

def jweightFields : List (List Char × JVal) → Nat
  | [] => 0
  | f :: fs => 1 + jweight f.2 + jweightFields fs

end

/-- The continuation after a serialized number must not begin with a
digit (inside serialized output it is `,`, `]`, `}` or the end). -/
def noDigitStart : List Char → Prop
  | [] => True
  | c :: _ => isDigitCh c = false

/-- The serialized items of a non-empty array, without the brackets. -/
def itemsDump (xs : List JVal) : List Char :=
  List.intercalate [',', ' '] (xs.map dumpsVal)

/-- The serialized members of a non-empty object, without the braces. -/
def fieldsDump (fs : List (List Char × JVal)) : List Char :=
  List.intercalate [',', ' ']
    (fs.map fun f => strChars f.1 ++ ':' :: ' ' :: dumpsVal f.2)

/-- `json.loads` (on the sublanguage `json.dumps` emits): parse one
value and require only whitespace after it. -/
def json_loads (s : List Char) : Option JVal :=
  match parseVal (s.length + 1) s with
  | some (v, r) => if skipWs r = [] then some v else none
  | none => none

/-- `json.dumps`. -/
def json_dumps (v : JVal) : List Char := dumpsVal v

/-! ## `BarkStorage` module-data operations (storage.py 217-294)

The `module_data` table has primary key `(module_name, server_id, key)`
and a TEXT `value` column holding `json.dumps(value)`.  We model the
table as an association list keyed by the triple (the `updated_at`
column is not observable through these operations and is omitted).
`get_module_data` returns `Except`: `.error` models `json.loads`
raising on a corrupted row. -/

abbrev DKey := String × String × String

abbrev Db := List (DKey × List Char)

/-- `BarkStorage.set_module_data`: `INSERT … ON CONFLICT … DO UPDATE`
on the primary key. -/
def set_module_data (db : Db) (moduleName serverId key : String) (v : JVal) : Db :=
  let k : DKey := (moduleName, serverId, key)
  if db.any (fun r => r.1 == k) then
    db.map (fun r => if r.1 == k then (k, json_dumps v) else r)
  else
    db ++ [(k, json_dumps v)]

/-- `BarkStorage.get_module_data`: `SELECT value … WHERE …`, then
`json.loads(row['value'])` when a row exists, else the default. -/
def get_module_data (db : Db) (moduleName serverId key : String)
    (default : JVal) : Except Unit JVal :=
  match db.find? (fun r => r.1 == (moduleName, serverId, key)) with
  | none => .ok default
  | some r =>
    match json_loads r.2 with
    | some v => .ok v
    | none => .error ()

/-- `BarkStorage.delete_module_data`: the branch is `if key:`, Python
truthiness, so a single row is deleted only for a non-`None`,
non-empty key; `None` *and* the empty string both delete every row of
the module/server pair. -/
def delete_module_data (db : Db) (moduleName serverId : String)
    (key : Option String) : Db :=
  match key with
  | some k =>
    if k.isEmpty then
      db.filter (fun r => !(r.1.1 == moduleName && r.1.2.1 == serverId))
    else
      db.filter (fun r => !(r.1 == (moduleName, serverId, k)))
  | none => db.filter (fun r => !(r.1.1 == moduleName && r.1.2.1 == serverId))

/-- A mutation of the `module_data` table: one `set_module_data` or
`delete_module_data` call (the only writers of the table). -/
inductive DbOp where
  | set (moduleName serverId key : String) (v : JVal)
  | del (moduleName serverId : String) (key : Option String)

def applyOp (db : Db) : DbOp → Db
  | .set m s k v => set_module_data db m s k v
  | .del m s key => delete_module_data db m s key

def applyOps (db : Db) (ops : List DbOp) : Db := ops.foldl applyOp db

/-- Whether an operation overwrites or deletes the row of the triple
`(m, s, k)`: a set of the same triple, a delete of the same non-empty
key triple, or a module/server-wide delete of the same module and
server — which a delete with a `None` *or empty* key performs
(`if key:` truthiness in `delete_module_data`). -/
def opTouches (m s k : String) : DbOp → Bool
  | .set m' s' k' _ => m' == m && s' == s && k' == k
  | .del m' s' (some k') =>
    if k'.isEmpty then m' == m && s' == s
    else m' == m && s' == s && k' == k
  | .del m' s' none => m' == m && s' == s

/-- A concrete stored value exercising every `JVal` constructor. -/
def c9Val : JVal :=
  .obj [(['q'], .arr [.num 7, .num (-3), .str ['o', 'k'], .null, .bool true])]

/-- Concrete intervening operations that do not touch
`("quotes", "42", "list")` — including an empty-key delete, which is a
module/server-wide delete (`if key:` truthiness) of another module. -/
def c9Ops : List DbOp :=
  [.set "quotes" "42" "other" (.num 1),
   .del "quotes" "7" none,
   .del "other" "42" (some ""),
   .del "quotes" "42" (some "misc")]

/-! ## The module manager state and operations

`ModuleManager` state that the claims observe: the available module
names (`get_available_modules()`, both directories), the module files
(by module name; the regular directory shadows the system one, as in
`reload_module`/`enable_module`), the `loaded_modules` and
`module_configs` dicts, the JSON sidecar file `module_config.json`, the
keys of `sys.modules` owned by loaded modules, and the keys of the
bot's command table (`bot.all_commands`).

Python dicts are association lists (assignment keeps the position of an
existing key, otherwise appends); a config is the JSON object stored per
module, restricted to boolean fields (only `enabled` is ever read). -/

/-- The JSON body of a `toggle_module` request
(`data.get('module')` / `data.get('action')`). -/
structure ToggleReq where
  module : Option String
  action : Option String

/-- A Flask request: `get_json()` yields `none` for a missing or empty
body (both are falsy in `if not data`). -/
abbrev Request := Option ToggleReq

/-- Responses observable through the dashboard API: a plain
`jsonify({"error": …}), status` pair, an `APIHelpers`
standard error/success (timestamps omitted — no claim mentions them),
or some other module-specific response. -/
inductive ApiResp where
  | jsonErr (msg : String) (status : Nat)
  | stdErr (msg : String) (status : Nat)
  | stdOk (msg : Option String)
  | other (tag : String)
  deriving DecidableEq

/-- A loaded module instance: the attributes the manager and the
settings module read. -/
structure ModInstance where
  isSystemModule : Bool
  commands : List String
  dependencies : List String
  hasCleanup : Bool
  hasHandleApi : Bool
  handleApi : String → Request → ApiResp

/-- A module file on disk: whether `spec_from_file_location` and
`exec_module` succeed, whether a `setup` attribute exists, what
`setup(bot, app)` returns (`none` = raises), and the raw text
(`none` = unreadable). -/
structure ModFile where
  specOk : Bool
  execOk : Bool
  hasSetup : Bool
  setupResult : Option ModInstance
  text : Option (List Char)

/-- A module config: a JSON object restricted to boolean fields. -/
abbrev Config := List (String × Bool)

/-- Python dict assignment `d[k] = v`. -/
def aupsert {α : Type} (l : List (String × α)) (k : String) (v : α) :
    List (String × α) :=
  if l.any (·.1 == k) then l.map (fun p => if p.1 == k then (k, v) else p)
  else l ++ [(k, v)]

structure Manager where
  available : List String
  files : String → Option ModFile
  loadedModules : List (String × ModInstance)
  moduleConfigs : List (String × Config)
  configFile : Option JVal
  sysModules : List String
  botCommands : List String

/-- `config.get('enabled', True)` for one config dict. -/
def cfgEnabledOf (c : Config) : Bool := (c.lookup "enabled").getD true

/-- `self.module_configs.get(module_name, {}).get('enabled', True)`. -/
def cfgEnabled (configs : List (String × Config)) (name : String) : Bool :=
  cfgEnabledOf ((configs.lookup name).getD [])

/-- `ModuleManager.save_module_configs` (103-113): write
`{name: {"enabled": flag}}` for every configured module to
`module_config.json`. -/
def save_module_configs (m : Manager) : Manager :=
  { m with
    configFile := some (JVal.obj (m.moduleConfigs.map fun p =>
      (p.1.toList, JVal.obj [("enabled".toList, JVal.bool (cfgEnabledOf p.2))]))) }

/-- `ModuleManager.cleanup_module_configs` (76-101): drop configs of
missing modules, add `{"enabled": True}` for new ones (a Python set
difference; modelled in first-occurrence order), normalize every config
to exactly its `enabled` field, and save when anything changed. -/
def cleanup_module_configs (m : Manager) : Manager :=
  let kept := m.moduleConfigs.filter (fun p => m.available.contains p.1)
  let newNames := m.available.dedup.filter
    (fun n => !(m.moduleConfigs.any (·.1 == n)))
  let withNew := kept ++ newNames.map (fun n => (n, [("enabled", true)]))
  let cleaned := withNew.map (fun p => (p.1, [("enabled", cfgEnabledOf p.2)]))
  let m1 := { m with moduleConfigs := cleaned }
  if m.moduleConfigs.any (fun p => !m.available.contains p.1) || !newNames.isEmpty then
    save_module_configs m1
  else m1

/-- `BaseModule.cleanup` (base_module.py 242-252): remove each command
of the instance from `bot.all_commands` when present. -/
def cleanupCommands (table : List String) (cmds : List String) : List String :=
  cmds.foldl (fun t c => if t.contains c then t.erase c else t) table

/-- `ModuleManager.unload_module` (278-308): call the instance's
`cleanup` when it has one, drop it from `loaded_modules` and from
`sys.modules`.  The dependents check only prints.  Returns `false` for
a module that is not loaded (Python falls through returning `None`,
which is falsy). -/
def unload_module (m : Manager) (name : String) : Manager × Bool :=
  match m.loadedModules.lookup name with
  | some inst =>
    let bc := if inst.hasCleanup then cleanupCommands m.botCommands inst.commands
              else m.botCommands
    ({ m with
        botCommands := bc
        loadedModules := m.loadedModules.filter (fun p => p.1 ≠ name)
        sysModules := if m.sysModules.contains name then m.sysModules.erase name
                      else m.sysModules },
     true)
  | none => (m, false)

/-- Effects of `load_module_from_path` that the claims observe. -/
inductive Effect where
  | execModule (name : String)
  | setupCalled (name : String)
  deriving DecidableEq

/-- `ModuleManager.load_module_from_path` (202-271). -/
def load_module_from_path (m : Manager) (filename : String) (file : ModFile) :
    Manager × Bool × List Effect :=
  if !(pEndsWith filename ".py") || filename == "__init__.py" then (m, false, [])
  else
    let name := pDropRight filename 3
    if !(cfgEnabled m.moduleConfigs name) then (m, false, [])
    else
      let m1 := if (m.loadedModules.lookup name).isSome then (unload_module m name).1
                else m
      if !file.specOk then (m1, false, [])
      else
        -- sys.modules[module_name] = module ; spec.loader.exec_module(module)
        let m2 := { m1 with
          sysModules := if m1.sysModules.contains name then m1.sysModules
                        else m1.sysModules ++ [name] }
        if !file.execOk then (m2, false, [.execModule name])
        else if !file.hasSetup then (m2, false, [.execModule name])
        else
          match file.setupResult with
          | none => (m2, false, [.execModule name, .setupCalled name])
          | some inst =>
            let m3 := { m2 with loadedModules := aupsert m2.loadedModules name inst }
            let m4 :=
              if (m3.moduleConfigs.lookup name).isSome then m3
              else save_module_configs
                { m3 with moduleConfigs := m3.moduleConfigs ++ [(name, [("enabled", true)])] }
            (m4, true, [.execModule name, .setupCalled name])

/-- The parsed dependencies of a module, as `_resolve_load_order`
obtains them (read the file at the resolved path; unreadable → `[]`). -/
def managerDeps (m : Manager) (name : String) : List String :=
  (get_module_dependencies ((m.files name).bind (·.text))).map List.asString

/-- `ModuleManager.load_all_modules` (327-348) up to the computed load
order: cleanup configs, filter the available modules by their enabled
flag, and resolve the order. -/
def load_all_modules_order (m : Manager) : List String :=
  let m1 := cleanup_module_configs m
  let enabled := m1.available.filter (fun n => cfgEnabled m1.moduleConfigs n)
  resolve_load_order (managerDeps m1) enabled

/-- `ModuleManager.enable_module` (372-392). -/
def enable_module (m : Manager) (name : String) : Manager × Bool :=
  if !(m.available.contains name) then (m, false)
  else
    let m1 := save_module_configs
      { m with moduleConfigs := aupsert m.moduleConfigs name [("enabled", true)] }
    match m1.files name with
    | some f =>
      let r := load_module_from_path m1 (name ++ ".py") f
      (r.1, r.2.1)
    | none => (m1, false)

/-- `ModuleManager.disable_module` (394-404).  Note: no
`is_system_module` check here. -/
def disable_module (m : Manager) (name : String) : Manager × Bool :=
  if !(m.available.contains name) then (m, false)
  else
    let m1 := save_module_configs
      { m with moduleConfigs := aupsert m.moduleConfigs name [("enabled", false)] }
    if (m1.loadedModules.lookup name).isSome then unload_module m1 name
    else (m1, true)

/-! ## `SettingsModule.handle_api`, `toggle_module` branch
(system_modules/settings.py 510-541) and the `/api/<module>/<action>`
route (bot.py 60-69). -/

/-- Python truthiness of `data.get('module')`. -/
def isTruthy : Option String → Bool
  | none => false
  | some s => s ≠ ""

/-- The `toggle_module` action of the settings module. -/
def toggle_module (m : Manager) (req : Request) : Manager × ApiResp :=
  match req with
  | none => (m, .stdErr "No JSON data provided" 400)
  | some data =>
    if !(isTruthy data.module) ||
        !(data.action == some "enable" || data.action == some "disable") then
      (m, .stdErr "Invalid request parameters" 400)
    else
      let name := data.module.getD ""
      let guarded :=
        match m.loadedModules.lookup name with
        | some inst => inst.isSystemModule
        | none => false
      if guarded then (m, .stdErr "Cannot toggle system modules" 403)
      else
        let actionName := if data.action == some "enable" then "enable" else "disable"
        let (m2, ok) :=
          if data.action == some "enable" then enable_module m name
          else disable_module m name
        if ok then
          (m2, .stdOk (some ("Module " ++ name ++ " " ++ actionName ++ "d successfully")))
        else
          (m2, .stdErr ("Failed to " ++ actionName ++ " module") 400)

/-- The Flask route `module_api` (bot.py 60-69).  The second component
lists the modules whose `handle_api` ran. -/
def module_api (mgr : Option Manager) (moduleName action : String)
    (req : Request) : ApiResp × List String :=
  match mgr with
  | none => (.jsonErr "Module not found" 404, [])
  | some m =>
    match m.loadedModules.lookup moduleName with
    | none => (.jsonErr "Module not found" 404, [])
    | some inst =>
      if inst.hasHandleApi then (inst.handleApi action req, [moduleName])
      else (.jsonErr "Module does not support API" 404, [])

/-! ## The file-watcher debounce (`ModuleChangeHandler.on_modified`,
module_manager.py 459-486; `SystemModuleChangeHandler` is identical).

`time.time()` is modelled as an exact rational.  The boolean result
records whether a reload thread was spawned. -/

structure FsEvent where
  srcPath : String
  isDirectory : Bool
  time : ℚ

structure WatchState where
  lastModified : List (String × ℚ)

/-- `on_modified`: ignore directory and non-`.py` events; drop an event
within 1 second of the last handled event for the same path (without
refreshing the timestamp); otherwise record the time and spawn the
reload. -/
def on_modified (st : WatchState) (e : FsEvent) : WatchState × Bool :=
  if e.isDirectory || !(pEndsWith e.srcPath ".py") then (st, false)
  else
    match st.lastModified.lookup e.srcPath with
    | some t =>
      if e.time - t < 1 then (st, false)
      else ({ lastModified := aupsert st.lastModified e.srcPath e.time }, true)
    | none => ({ lastModified := aupsert st.lastModified e.srcPath e.time }, true)

/-- A whole event sequence through the handler. -/
def processEvents (st : WatchState) : List FsEvent → WatchState
  | [] => st
  | e :: es => processEvents (on_modified st e).1 es

/-! ## Spec-side readings of the dependency-parsing claim

Two predicates written from the specification's own words (for the
refinement comparison with `_get_module_dependencies`): the claim as
stated, and the claim amended to the code's actual branch structure. -/

/-- Claim reading, marker rule: "for each line whose stripped text
starts with '# DEPENDENCIES:', every non-empty comma-separated name on
the remainder of that line". -/
def markerNamesClaimed (rawLine : List Char) : List (List Char) :=
  let line := pstrip rawLine
  if depMarker.isPrefixOf line then
    (((line.drop depMarker.length).splitOn ',').map pstrip).filter (· ≠ [])
  else []

/-- Claim reading, bracket rule: "for each non-instance assignment line
containing 'dependencies', '=' and '[', every name found between the
first '[' and the first ']' with surrounding quotes stripped". -/
def bracketNamesClaimed (rawLine : List Char) : List (List Char) :=
  let line := pstrip rawLine
  if hasSub "dependencies".toList line && hasSub "=".toList line
      && hasSub "[".toList line && !(hasSub "self.dependencies".toList line) then
    match line.indexOf? '[', line.indexOf? ']' with
    | some s, some e =>
      (((pslice (s + 1) e line).splitOn ',').map
        (fun d => pstripChars quoteChars (pstrip d))).filter (· ≠ [])
    | _, _ => []
  else []

/-- The dependency-parsing claim as stated. -/
def depClaimHolds (file : Option (List Char)) : Prop :=
  match file with
  | none => get_module_dependencies none = []
  | some content =>
    ∀ line ∈ content.splitOn '\n',
      ∀ d ∈ markerNamesClaimed line ++ bracketNamesClaimed line,
        d ∈ getModuleDependenciesText content

instance (file : Option (List Char)) : Decidable (depClaimHolds file) :=
  match file with
  | none => by unfold depClaimHolds; infer_instance
  | some _ => by unfold depClaimHolds; infer_instance

/-- Amended marker rule: the code deletes *every* occurrence of the
marker from the line (Python `str.replace`), not just the leading one. -/
def markerNamesAmended (rawLine : List Char) : List (List Char) :=
  let line := pstrip rawLine
  if depMarker.isPrefixOf line then
    (((pstrip (removeAll depMarker line)).splitOn ',').map pstrip).filter (· ≠ [])
  else []

/-- Amended bracket rule: it only applies to lines whose stripped text
does *not* start with the marker (the code's `elif`). -/
def bracketNamesAmended (rawLine : List Char) : List (List Char) :=
  let line := pstrip rawLine
  if depMarker.isPrefixOf line then []
  else bracketNamesClaimed rawLine

/-- The dependency-parsing claim as amended. -/
def depClaimAmendedHolds (file : Option (List Char)) : Prop :=
  match file with
  | none => get_module_dependencies none = []
  | some content =>
    ∀ line ∈ content.splitOn '\n',
      ∀ d ∈ markerNamesAmended line ++ bracketNamesAmended line,
        d ∈ getModuleDependenciesText content

/-! ## Concrete objects used by witnesses and counterexamples -/

/-- A loaded settings instance flagged as a system module. -/
def settingsInst : ModInstance where
  isSystemModule := true
  commands := []
  dependencies := []
  hasCleanup := true
  hasHandleApi := true
  handleApi := fun _ _ => .other "settings"

/-- A manager whose only module is the loaded, enabled system module
`settings`. -/
def sysMgr : Manager where
  available := ["settings"]
  files := fun _ => none
  loadedModules := [("settings", settingsInst)]
  moduleConfigs := [("settings", [("enabled", true)])]
  configFile := none
  sysModules := ["settings"]
  botCommands := []

/-- Dependency map with a duplicated dependency:
`c ↦ [a]`, `a ↦ [b, b]` (an acyclic graph). -/
def depsDup : String → List String :=
  fun n => if n = "c" then ["a"] else if n = "a" then ["b", "b"] else []

/-- Plain chain `a ↦ [b]`. -/
def depsChain : String → List String :=
  fun n => if n = "a" then ["b"] else []

/-- A module file whose import and setup succeed but that is irrelevant
to the disabled-module paths. -/
def plainFile : ModFile where
  specOk := true
  execOk := true
  hasSetup := true
  setupResult := none
  text := none

/-- A manager with one available, disabled, unloaded module `x`. -/
def disabledMgr : Manager where
  available := ["x"]
  files := fun _ => some plainFile
  loadedModules := []
  moduleConfigs := [("x", [("enabled", false)])]
  configFile := none
  sysModules := []
  botCommands := []

/-- An instance that serves API requests. -/
def apiInst : ModInstance where
  isSystemModule := false
  commands := []
  dependencies := []
  hasCleanup := false
  hasHandleApi := true
  handleApi := fun a _ => .other a

/-- An instance without a `handle_api` attribute. -/
def noApiInst : ModInstance where
  isSystemModule := false
  commands := []
  dependencies := []
  hasCleanup := false
  hasHandleApi := false
  handleApi := fun _ _ => .other ""

/-- An instance owning two commands, for the unload claim. -/
def cmdInst : ModInstance where
  isSystemModule := false
  commands := ["c1", "c2"]
  dependencies := []
  hasCleanup := true
  hasHandleApi := false
  handleApi := fun _ _ => .other ""

/-- A manager with `mod` loaded (owning `c1`, `c2`) next to a command
`k` of some other module. -/
def unloadMgr : Manager where
  available := ["mod"]
  files := fun _ => none
  loadedModules := [("mod", cmdInst), ("api", apiInst)]
  moduleConfigs := [("mod", [("enabled", true)])]
  configFile := none
  sysModules := ["mod"]
  botCommands := ["c1", "k", "c2"]

/-! # Theorems -/

/-! ## Association-list helper lemmas -/

theorem lookup_filter_ne_self {α : Type} (l : List (String × α)) (name : String) :
    (l.filter (fun p => p.1 ≠ name)).lookup name = none := by
  induction l with
  | nil => rfl
  | cons p es ih =>
    by_cases h : p.1 = name
    · simpa [List.filter_cons, h] using ih
    · have hb : (name == p.1) = false := beq_false_of_ne (Ne.symm h)
      simp only [List.filter_cons, ne_eq, h, not_false_eq_true, decide_not]
      simpa [List.lookup, hb] using ih

theorem lookup_filter_ne_other {α : Type} (l : List (String × α)) (name n : String)
    (h : n ≠ name) : (l.filter (fun p => p.1 ≠ name)).lookup n = l.lookup n := by
  induction l with
  | nil => rfl
  | cons p es ih =>
    by_cases hp : p.1 = name
    · have hb : (n == p.1) = false := beq_false_of_ne (hp ▸ h)
      simp only [List.filter_cons, ne_eq, hp, not_true_eq_false, decide_False]
      simpa [List.lookup, hb] using ih
    · simp only [List.filter_cons, ne_eq, hp, not_false_eq_true, decide_not]
      by_cases hv : n = p.1
      · simp [List.lookup, hv]
      · have hb : (n == p.1) = false := beq_false_of_ne hv
        simpa [List.lookup, hb] using ih

/-! ## C1: disabling system modules -/

/-- C1 (counterexample): `ModuleManager.disable_module` has no
`is_system_module` check.  On a manager whose loaded `settings` instance
is flagged as a system module, a direct `disable_module` call records
`enabled = false` in the config and removes it from `loaded_modules` —
the claim as stated is false. -/
theorem disable_module_disables_system_module :
    ((sysMgr.loadedModules.lookup "settings").map (·.isSystemModule) = some true)
    ∧ cfgEnabled (disable_module sysMgr "settings").1.moduleConfigs "settings" = false
    ∧ (disable_module sysMgr "settings").1.loadedModules.lookup "settings" = none := by
  refine ⟨rfl, by decide, rfl⟩

/-- C1 (amended): the system-module protection lives in the settings
API: a `toggle_module` `'disable'` request for a module whose *loaded*
instance sets `is_system_module` is rejected with a 403 error and the
manager state — its configs and `loaded_modules` included — is
unchanged. -/
theorem toggle_module_guards_system_modules (m : Manager) (name : String)
    (inst : ModInstance) (hl : m.loadedModules.lookup name = some inst)
    (hs : inst.isSystemModule = true) (hn : name ≠ "") :
    toggle_module m (some ⟨some name, some "disable"⟩) =
      (m, .stdErr "Cannot toggle system modules" 403) := by
  simp [toggle_module, isTruthy, hl, hs, hn]

/-- C1 (witness): the guard fires on the concrete system-module manager. -/
theorem toggle_module_guards_system_modules_witness :
    toggle_module sysMgr (some ⟨some "settings", some "disable"⟩) =
      (sysMgr, .stdErr "Cannot toggle system modules" 403) :=
  toggle_module_guards_system_modules sysMgr "settings" settingsInst rfl rfl
    (by decide)

/-! ## C5: the file-watcher debounce -/

/-- C5: `on_modified` ignores directory events and events whose path
does not end in `.py`, and an event within 1 second of the last handled
event for the same path is dropped without state change (the debounce
window is not refreshed either). -/
theorem on_modified_spec (st : WatchState) (e : FsEvent) :
    ((e.isDirectory = true ∨ pEndsWith e.srcPath ".py" = false) →
        on_modified st e = (st, false))
    ∧ (∀ t : ℚ, st.lastModified.lookup e.srcPath = some t → e.time - t < 1 →
        on_modified st e = (st, false)) := by
  constructor
  · intro h
    rcases h with h | h <;> simp [on_modified, h]
  · intro t hl hlt
    by_cases hd : e.isDirectory = true ∨ pEndsWith e.srcPath ".py" = false
    · rcases hd with h | h <;> simp [on_modified, h]
    · push_neg at hd
      simp [on_modified, hd.1, hd.2, hl, hlt]

/-- C5 (witness): a directory event, a `.txt` event and a same-second
repeat event are all dropped on a concrete watcher state. -/
theorem on_modified_spec_witness :
    on_modified ⟨[("a.py", (10 : ℚ))]⟩ ⟨"a.py", true, 11⟩ = (⟨[("a.py", (10 : ℚ))]⟩, false)
    ∧ on_modified ⟨[("a.py", (10 : ℚ))]⟩ ⟨"b.txt", false, 11⟩ = (⟨[("a.py", (10 : ℚ))]⟩, false)
    ∧ on_modified ⟨[("a.py", (10 : ℚ))]⟩ ⟨"a.py", false, 10⟩ = (⟨[("a.py", (10 : ℚ))]⟩, false) :=
  ⟨(on_modified_spec _ _).1 (Or.inl rfl),
   (on_modified_spec _ _).1 (Or.inr (by decide)),
   (on_modified_spec _ _).2 10 rfl (by norm_num)⟩

/-! ## C8: the `/api/<module>/<action>` route -/

/-- C8: `module_api` answers 404 without reaching any module when the
manager is absent or the module is not loaded; a loaded instance with
`handle_api` gets exactly its `handle_api(action, request)` value; one
without gets a 404. -/
theorem module_api_spec (m : Manager) (name action : String) (req : Request) :
    (module_api none name action req = (.jsonErr "Module not found" 404, []))
    ∧ (m.loadedModules.lookup name = none →
        module_api (some m) name action req = (.jsonErr "Module not found" 404, []))
    ∧ (∀ inst, m.loadedModules.lookup name = some inst →
        (inst.hasHandleApi = true →
          module_api (some m) name action req = (inst.handleApi action req, [name]))
        ∧ (inst.hasHandleApi = false →
          module_api (some m) name action req =
            (.jsonErr "Module does not support API" 404, []))) := by
  refine ⟨rfl, fun h => by simp [module_api, h], fun inst h => ⟨fun ha => ?_, fun ha => ?_⟩⟩
  · simp [module_api, h, ha]
  · simp [module_api, h, ha]

/-- C8 (witness): the three behaviours on a concrete manager. -/
theorem module_api_spec_witness :
    module_api none "m" "act" none = (.jsonErr "Module not found" 404, [])
    ∧ module_api (some unloadMgr) "ghost" "act" none = (.jsonErr "Module not found" 404, [])
    ∧ module_api (some unloadMgr) "api" "act" none = (.other "act", ["api"])
    ∧ module_api (some unloadMgr) "mod" "act" none =
        (.jsonErr "Module does not support API" 404, []) :=
  ⟨(module_api_spec unloadMgr "m" "act" none).1,
   (module_api_spec unloadMgr "ghost" "act" none).2.1 rfl,
   ((module_api_spec unloadMgr "api" "act" none).2.2 apiInst rfl).1 rfl,
   ((module_api_spec unloadMgr "mod" "act" none).2.2 cmdInst rfl).2 rfl⟩

/-! ## C10: unload frame effects -/

theorem erase_eq_self_or (table : List String) (d : String) :
    (if table.contains d then table.erase d else table) = table.erase d := by
  by_cases h : d ∈ table
  · simp [h]
  · simp [h, List.erase_of_not_mem h]

theorem mem_cleanupCommands (cmds : List String) (table : List String)
    (hn : table.Nodup) (c : String) :
    c ∈ cleanupCommands table cmds ↔ (c ∈ table ∧ c ∉ cmds) := by
  induction cmds generalizing table with
  | nil => simp [cleanupCommands]
  | cons d ds ih =>
    have step : cleanupCommands table (d :: ds) = cleanupCommands (table.erase d) ds := by
      unfold cleanupCommands
      simp only [List.foldl_cons]
      congr 1
      by_cases hd : d ∈ table
      · simp [hd]
      · simp [hd, List.erase_of_not_mem hd]
    rw [step, ih _ (hn.erase d)]
    rw [hn.mem_erase_iff]
    constructor
    · rintro ⟨⟨h1, h2⟩, h3⟩
      exact ⟨h2, by simp [h1, h3]⟩
    · rintro ⟨h1, h2⟩
      simp only [List.mem_cons, not_or] at h2
      exact ⟨⟨h2.1, h1⟩, h2.2⟩

/-- C10: unloading a loaded module whose instance follows the
`BaseModule.cleanup` contract removes exactly its recorded command names
from the bot's command table, removes it from `loaded_modules` and
`sys.modules`, and leaves every other module's commands and loaded
entry, and the whole `module_configs` dict, unchanged. -/
theorem unload_module_spec (m : Manager) (name : String) (inst : ModInstance)
    (h : m.loadedModules.lookup name = some inst)
    (hcl : inst.hasCleanup = true)
    (hnt : m.botCommands.Nodup) (hns : m.sysModules.Nodup) :
    (unload_module m name).2 = true
    ∧ (∀ c, c ∈ (unload_module m name).1.botCommands ↔
        (c ∈ m.botCommands ∧ c ∉ inst.commands))
    ∧ (unload_module m name).1.loadedModules.lookup name = none
    ∧ (∀ n, n ≠ name →
        (unload_module m name).1.loadedModules.lookup n = m.loadedModules.lookup n)
    ∧ name ∉ (unload_module m name).1.sysModules
    ∧ (∀ n, n ≠ name →
        (n ∈ (unload_module m name).1.sysModules ↔ n ∈ m.sysModules))
    ∧ (unload_module m name).1.moduleConfigs = m.moduleConfigs := by
  have hu : unload_module m name =
      ({ m with
          botCommands := cleanupCommands m.botCommands inst.commands
          loadedModules := m.loadedModules.filter (fun p => p.1 ≠ name)
          sysModules := if m.sysModules.contains name then m.sysModules.erase name
                        else m.sysModules },
       true) := by
    simp [unload_module, h, hcl]
  rw [hu]
  refine ⟨rfl, fun c => mem_cleanupCommands inst.commands m.botCommands hnt c,
    lookup_filter_ne_self _ _, fun n hn => lookup_filter_ne_other _ _ _ hn, ?_, ?_, rfl⟩
  · rw [erase_eq_self_or]
    intro hmem
    exact ((hns.mem_erase_iff).mp hmem).1 rfl
  · intro n hn
    rw [erase_eq_self_or, hns.mem_erase_iff]
    simp [hn]

/-- C10 (witness): unloading `mod` from the concrete manager removes
`c1`, `c2` and keeps `k`. -/
theorem unload_module_spec_witness :
    ("c1" ∈ (unload_module unloadMgr "mod").1.botCommands ↔
      ("c1" ∈ unloadMgr.botCommands ∧ "c1" ∉ cmdInst.commands))
    ∧ (unload_module unloadMgr "mod").1.loadedModules.lookup "mod" = none
    ∧ (unload_module unloadMgr "mod").1.loadedModules.lookup "api" =
        unloadMgr.loadedModules.lookup "api"
    ∧ "mod" ∉ (unload_module unloadMgr "mod").1.sysModules
    ∧ (unload_module unloadMgr "mod").1.moduleConfigs = unloadMgr.moduleConfigs :=
  have hs := unload_module_spec unloadMgr "mod" cmdInst rfl rfl (by decide) (by decide)
  ⟨hs.2.1 "c1", hs.2.2.1, hs.2.2.2.1 "api" (by decide), hs.2.2.2.2.1, hs.2.2.2.2.2.2⟩

/-! ## Kahn-loop output stays within the input list -/

theorem processOne_queue_sub (deps : String → List String) (list : List String)
    (current : String) (s : KState) (m : String) :
    ∀ x ∈ (processOne deps list current s m).queue, x ∈ s.queue ∨ x = m := by
  unfold processOne
  split
  · dsimp only
    split
    · intro x hx
      rcases List.mem_append.mp hx with h | h
      · exact Or.inl h
      · exact Or.inr (List.mem_singleton.mp h)
    · exact fun x hx => Or.inl hx
  · exact fun x hx => Or.inl hx

theorem foldl_processOne_queue_sub (deps : String → List String) (list : List String)
    (current : String) (ms : List String) (s0 : KState) :
    ∀ x ∈ (ms.foldl (processOne deps list current) s0).queue,
      x ∈ s0.queue ∨ x ∈ ms := by
  induction ms generalizing s0 with
  | nil => exact fun x hx => Or.inl hx
  | cons m ms ih =>
    intro x hx
    rcases ih (processOne deps list current s0 m) x hx with h | h
    · rcases processOne_queue_sub deps list current s0 m x h with h2 | h2
      · exact Or.inl h2
      · exact Or.inr (h2 ▸ List.mem_cons_self m ms)
    · exact Or.inr (List.mem_cons_of_mem m h)

theorem foldl_processOne_result_eq (deps : String → List String) (list : List String)
    (current : String) (ms : List String) (s0 : KState) :
    (ms.foldl (processOne deps list current) s0).result = s0.result := by
  induction ms generalizing s0 with
  | nil => rfl
  | cons m ms ih =>
    rw [List.foldl_cons, ih]
    unfold processOne
    split <;> rfl

theorem kahnLoop_result_sub (deps : String → List String) (list : List String)
    (fuel : Nat) (s : KState) :
    ∀ x ∈ (kahnLoop deps list fuel s).result,
      x ∈ s.result ∨ x ∈ s.queue ∨ x ∈ list := by
  induction fuel generalizing s with
  | zero => exact fun x hx => Or.inl hx
  | succ fuel ih =>
    intro x hx
    unfold kahnLoop at hx
    match hq : s.queue with
    | [] => rw [hq] at hx; exact Or.inl hx
    | current :: rest =>
      rw [hq] at hx
      rcases ih _ x hx with h | h | h
      · rw [stepDecs, foldl_processOne_result_eq] at h
        rcases List.mem_append.mp h with h2 | h2
        · exact Or.inl h2
        · have hx2 : x = current := List.mem_singleton.mp h2
          subst hx2
          exact Or.inr (Or.inl (List.mem_cons_self _ _))
      · rw [stepDecs] at h
        rcases foldl_processOne_queue_sub deps list current list _ x h with h2 | h2
        · exact Or.inr (Or.inl (List.mem_cons_of_mem _ h2))
        · exact Or.inr (Or.inr h2)
      · exact Or.inr (Or.inr h)

/-- Everything `_resolve_load_order` returns is one of the input names. -/
theorem resolve_load_order_sub (deps : String → List String) (list : List String) :
    ∀ x ∈ resolve_load_order deps list, x ∈ list := by
  intro x hx
  unfold resolve_load_order at hx
  have core : ∀ y ∈ (kahnLoop deps list list.length
      { queue := list.filter (fun m => buildInd deps list m == 0),
        ind := buildInd deps list, result := [] }).result, y ∈ list := by
    intro y hy
    rcases kahnLoop_result_sub deps list list.length _ y hy with h | h | h
    · simp at h
    · exact List.mem_of_mem_filter h
    · exact h
  dsimp only at hx
  split at hx
  · rcases List.mem_append.mp hx with h | h
    · exact core x h
    · exact List.mem_of_mem_filter h
  · exact core x hx

/-! ## Config-lookup lemmas for `cleanup_module_configs` -/

theorem lookup_map_normalize (l : List (String × Config)) (n : String) :
    (l.map (fun p => (p.1, [("enabled", cfgEnabledOf p.2)]))).lookup n =
      (l.lookup n).map (fun c => [("enabled", cfgEnabledOf c)]) := by
  induction l with
  | nil => rfl
  | cons p es ih =>
    by_cases h : (n == p.1) = true
    · simp [List.lookup, h]
    · rw [Bool.not_eq_true] at h
      simp [List.lookup, h, ih]

theorem lookup_append_left {α : Type} (l1 l2 : List (String × α)) (n : String)
    (v : α) (h : l1.lookup n = some v) : (l1 ++ l2).lookup n = some v := by
  induction l1 with
  | nil => simp [List.lookup] at h
  | cons p es ih =>
    by_cases hb : (n == p.1)
    · simp only [List.lookup, hb] at h ⊢
      exact h
    · rw [Bool.not_eq_true] at hb
      simp only [List.cons_append, List.lookup, hb] at h ⊢
      exact ih h

theorem lookup_filter_keys {α : Type} (q : String → Bool) (l : List (String × α))
    (n : String) (hq : q n = true) :
    (l.filter (fun p => q p.1)).lookup n = l.lookup n := by
  induction l with
  | nil => rfl
  | cons p es ih =>
    by_cases hk : q p.1
    · by_cases hb : (n == p.1)
      · simp [List.filter_cons, hk, List.lookup, hb]
      · rw [Bool.not_eq_true] at hb
        simp [List.filter_cons, hk, List.lookup, hb, ih]
    · have hne : (n == p.1) = false := by
        rw [beq_eq_false_iff_ne]
        intro he
        rw [he] at hq
        exact hk hq
      rw [Bool.not_eq_true] at hk
      simp [List.filter_cons, hk, List.lookup, hne, ih]

/-- `cleanup_module_configs` does not touch `available` and computes the
cleaned configs regardless of the save branch. -/
theorem cleanup_module_configs_configs (m : Manager) :
    (cleanup_module_configs m).moduleConfigs =
      ((m.moduleConfigs.filter (fun p => m.available.contains p.1)) ++
        (m.available.dedup.filter
          (fun n => !(m.moduleConfigs.any (·.1 == n)))).map
            (fun n => (n, [("enabled", true)]))).map
        (fun p => (p.1, [("enabled", cfgEnabledOf p.2)])) := by
  unfold cleanup_module_configs
  dsimp only
  split <;> rfl

theorem cleanup_module_configs_available (m : Manager) :
    (cleanup_module_configs m).available = m.available := by
  unfold cleanup_module_configs
  dsimp only
  split <;> rfl

/-- An explicitly disabled module keeps its `enabled = false` flag
through `cleanup_module_configs` (when it is still available). -/
theorem cfgEnabled_cleanup_of_disabled (m : Manager) (name : String)
    (hav : name ∈ m.available)
    (h : cfgEnabled m.moduleConfigs name = false) :
    cfgEnabled (cleanup_module_configs m).moduleConfigs name = false := by
  rw [cleanup_module_configs_configs]
  obtain ⟨c, hc⟩ : ∃ c, m.moduleConfigs.lookup name = some c := by
    cases hl : m.moduleConfigs.lookup name with
    | some c => exact ⟨c, rfl⟩
    | none => rw [cfgEnabled, hl] at h; simp [cfgEnabledOf] at h
  have hkept : (m.moduleConfigs.filter (fun p => m.available.contains p.1)).lookup name
      = some c := by
    rw [lookup_filter_keys _ _ _ (by simpa using hav)]
    exact hc
  have happ := lookup_append_left _
    ((m.available.dedup.filter
      (fun n => !(m.moduleConfigs.any (·.1 == n)))).map
        (fun n => (n, [("enabled", true)]))) name c hkept
  rw [cfgEnabled, lookup_map_normalize, happ]
  rw [cfgEnabled, hc] at h
  simpa [cfgEnabledOf] using h

/-! ## C4: disabled modules are not loaded -/

/-- C4: a module whose config records `enabled = false` is rejected by
`load_module_from_path` with no state change and no import or setup
effect, and never appears in the load order that `load_all_modules`
computes. -/
theorem disabled_module_not_loaded (m : Manager) :
    (∀ filename file, cfgEnabled m.moduleConfigs (pDropRight filename 3) = false →
      load_module_from_path m filename file = (m, false, []))
    ∧ (∀ name, cfgEnabled m.moduleConfigs name = false →
      name ∉ load_all_modules_order m) := by
  constructor
  · intro filename file h
    unfold load_module_from_path
    by_cases h1 : (!pEndsWith filename ".py" || filename == "__init__.py") = true
    · simp [h1]
    · simp only [h1, Bool.false_eq_true, if_false]
      simp [h]
  · intro name h hmem
    unfold load_all_modules_order at hmem
    have hsub := resolve_load_order_sub
      (managerDeps (cleanup_module_configs m))
      ((cleanup_module_configs m).available.filter
        (fun n => cfgEnabled (cleanup_module_configs m).moduleConfigs n))
      name hmem
    have hav : name ∈ m.available := by
      have := List.mem_of_mem_filter hsub
      rwa [cleanup_module_configs_available] at this
    have hflag := List.of_mem_filter hsub
    rw [cfgEnabled_cleanup_of_disabled m name hav h] at hflag
    exact absurd hflag (by simp)

/-- C4 (witness): the concrete disabled module `x` is skipped. -/
theorem disabled_module_not_loaded_witness :
    load_module_from_path disabledMgr "x.py" plainFile = (disabledMgr, false, [])
    ∧ "x" ∉ load_all_modules_order disabledMgr :=
  ⟨(disabled_module_not_loaded disabledMgr).1 "x.py" plainFile (by decide),
   (disabled_module_not_loaded disabledMgr).2 "x" (by decide)⟩

/-! ## C7: config cleanup and persistence shape -/

/-- C7: after `cleanup_module_configs` the config keys are exactly the
available module names and every config is exactly its `enabled` field;
`save_module_configs` writes one `enabled` flag per configured module
and nothing else. -/
theorem config_bookkeeping_spec (m : Manager) :
    (∀ x, x ∈ (cleanup_module_configs m).moduleConfigs.map Prod.fst ↔
      x ∈ m.available)
    ∧ (∀ p ∈ (cleanup_module_configs m).moduleConfigs, ∃ b, p.2 = [("enabled", b)])
    ∧ (∃ entries, (save_module_configs m).configFile = some (JVal.obj entries)
        ∧ entries.map Prod.fst = m.moduleConfigs.map (fun p => p.1.toList)
        ∧ ∀ e ∈ entries, ∃ b, e.2 = JVal.obj [("enabled".toList, JVal.bool b)]) := by
  refine ⟨?_, ?_, ?_⟩
  · intro x
    rw [cleanup_module_configs_configs]
    simp only [List.map_map, List.map_append, List.mem_append, List.mem_map,
      Function.comp]
    constructor
    · rintro (⟨p, hp, hpx⟩ | ⟨n, hn, hnx⟩)
      · have hmem := List.of_mem_filter hp
        subst hpx
        exact List.mem_of_elem_eq_true hmem
      · subst hnx
        exact List.mem_dedup.mp (List.mem_of_mem_filter hn)
    · intro hx
      by_cases hc : ∃ p, p ∈ m.moduleConfigs ∧ p.1 = x
      · obtain ⟨p, hp, hpx⟩ := hc
        refine Or.inl ⟨p, List.mem_filter.mpr ⟨hp, by simpa [hpx] using hx⟩, hpx⟩
      · refine Or.inr ⟨x, List.mem_filter.mpr ⟨List.mem_dedup.mpr hx, ?_⟩, rfl⟩
        have hall : m.moduleConfigs.any (·.1 == x) = false := by
          rw [List.any_eq_false]
          intro p hp
          exact fun he => hc ⟨p, hp, eq_of_beq he⟩
        simp [hall]
  · intro p hp
    rw [cleanup_module_configs_configs] at hp
    obtain ⟨q, _, hq⟩ := List.mem_map.mp hp
    exact ⟨cfgEnabledOf q.2, by rw [← hq]⟩
  · refine ⟨_, rfl, ?_, ?_⟩
    · rw [List.map_map]
      rfl
    · intro e he
      obtain ⟨p, _, hp⟩ := List.mem_map.mp he
      exact ⟨cfgEnabledOf p.2, by rw [← hp]⟩

/-- C7 (witness): the cleaned concrete manager keeps exactly its
available module with a single-field config. -/
theorem config_bookkeeping_spec_witness :
    ("x" ∈ (cleanup_module_configs disabledMgr).moduleConfigs.map Prod.fst ↔
      "x" ∈ disabledMgr.available)
    ∧ (∃ b, (("x", [("enabled", false)]) : String × Config).2 = [("enabled", b)]) :=
  ⟨(config_bookkeeping_spec disabledMgr).1 "x",
   (config_bookkeeping_spec disabledMgr).2.1 ("x", [("enabled", false)]) (by decide)⟩

/-! ## Kahn's algorithm: counting and indexOf helpers -/

theorem indexOf_append_left (a : String) (l t : List String) (h : a ∈ l) :
    (l ++ t).indexOf a = l.indexOf a := by
  induction l with
  | nil => cases h
  | cons b bs ih =>
    by_cases hb : a = b
    · simp [List.indexOf_cons, hb]
    · have hm : a ∈ bs := by
        rcases List.mem_cons.mp h with h1 | h1
        · exact absurd h1 hb
        · exact h1
      have hbeq : (b == a) = false := beq_false_of_ne (Ne.symm hb)
      simp [List.indexOf_cons, hbeq, ih hm]

theorem indexOf_append_self (a : String) (l : List String) (h : a ∉ l) :
    (l ++ [a]).indexOf a = l.length := by
  induction l with
  | nil => simp
  | cons b bs ih =>
    have hb : a ≠ b := fun he => h (he ▸ List.mem_cons_self b bs)
    have hbeq : (b == a) = false := beq_false_of_ne (Ne.symm hb)
    have hnb : a ∉ bs := fun hm => h (List.mem_cons_of_mem b hm)
    simp [List.indexOf_cons, hbeq, ih hnb]

/-- The popped dependencies of `m` never outnumber its in-list
dependency occurrences. -/
theorem popped_le_occIn (deps : String → List String) (list : List String)
    (m : String) (R : List String) (hR : R.Nodup) (hsub : ∀ r ∈ R, r ∈ list) :
    (R.filter (fun r => (deps m).contains r)).length ≤ occIn deps list m := by
  have hA : (R.filter (fun r => (deps m).contains r)).Nodup := hR.filter _
  have hAB : ∀ x ∈ R.filter (fun r => (deps m).contains r),
      x ∈ (deps m).filter (fun d => list.contains d) := by
    intro x hx
    have hxR := List.mem_of_mem_filter hx
    have hxd := List.of_mem_filter hx
    refine List.mem_filter.mpr ⟨List.mem_of_elem_eq_true hxd, ?_⟩
    simpa using hsub x hxR
  exact (hA.subperm hAB).length_le

/-- When the popped count reaches the occurrence count, every in-list
dependency has been popped. -/
theorem done_of_popped_eq (deps : String → List String) (list : List String)
    (m : String) (R : List String) (hR : R.Nodup) (hsub : ∀ r ∈ R, r ∈ list)
    (heq : (R.filter (fun r => (deps m).contains r)).length = occIn deps list m) :
    DoneDeps deps list R m := by
  intro d hd hdl
  have hA : (R.filter (fun r => (deps m).contains r)).Nodup := hR.filter _
  have hAB : ∀ x ∈ R.filter (fun r => (deps m).contains r),
      x ∈ (deps m).filter (fun d => list.contains d) := by
    intro x hx
    have hxR := List.mem_of_mem_filter hx
    have hxd := List.of_mem_filter hx
    refine List.mem_filter.mpr ⟨List.mem_of_elem_eq_true hxd, ?_⟩
    simpa using hsub x hxR
  have hperm := (hA.subperm hAB).perm_of_length_le (le_of_eq heq.symm)
  have hdB : d ∈ (deps m).filter (fun d => list.contains d) :=
    List.mem_filter.mpr ⟨hd, by simpa using hdl⟩
  exact List.mem_of_mem_filter (hperm.mem_iff.mpr hdB)

/-- Conversely, with duplicate-free in-list dependencies, `DoneDeps`
forces the popped count up to the occurrence count. -/
theorem popped_eq_of_done (deps : String → List String) (list : List String)
    (m : String) (R : List String) (hR : R.Nodup) (hsub : ∀ r ∈ R, r ∈ list)
    (hnd : ((deps m).filter (fun d => list.contains d)).Nodup)
    (hdone : DoneDeps deps list R m) :
    (R.filter (fun r => (deps m).contains r)).length = occIn deps list m := by
  refine le_antisymm (popped_le_occIn deps list m R hR hsub) ?_
  have hBA : ∀ x ∈ (deps m).filter (fun d => list.contains d),
      x ∈ R.filter (fun r => (deps m).contains r) := by
    intro x hx
    have hxd := List.mem_of_mem_filter hx
    have hxl : x ∈ list := by simpa using List.of_mem_filter hx
    refine List.mem_filter.mpr ⟨hdone x hxd hxl, ?_⟩
    simpa using hxd
  exact (hnd.subperm hBA).length_le

/-! ## Characterizing one pass of the inner decrement loop -/

theorem foldl_processOne_ind (deps : String → List String) (list : List String)
    (current : String) (ms : List String) (hms : ms.Nodup) (s0 : KState) (x : String) :
    (ms.foldl (processOne deps list current) s0).ind x =
      if x ∈ ms ∧ ((deps x).contains current && list.contains x) = true
      then s0.ind x - 1 else s0.ind x := by
  induction ms generalizing s0 with
  | nil => simp
  | cons m ms ih =>
    have hmnotin : m ∉ ms := (List.nodup_cons.mp hms).1
    have htail : ms.Nodup := (List.nodup_cons.mp hms).2
    rw [List.foldl_cons, ih htail]
    by_cases hxm : x = m
    · subst hxm
      simp only [hmnotin, false_and, if_false]
      unfold processOne
      by_cases hp : current ∈ deps x ∧ x ∈ list
      · simp [hp]
      · simp [hp]
    · have hs1 : (processOne deps list current s0 m).ind x = s0.ind x := by
        unfold processOne
        split
        · simp [hxm]
        · rfl
      rw [hs1]
      by_cases hxms : x ∈ ms
      · simp [hxms, List.mem_cons]
      · simp [hxms, List.mem_cons, hxm]

theorem foldl_processOne_queue (deps : String → List String) (list : List String)
    (current : String) (ms : List String) (hms : ms.Nodup) (s0 : KState) :
    (ms.foldl (processOne deps list current) s0).queue =
      s0.queue ++ ms.filter (fun m =>
        ((deps m).contains current && list.contains m) && (s0.ind m - 1 == 0)) := by
  induction ms generalizing s0 with
  | nil => simp
  | cons m ms ih =>
    have hmnotin : m ∉ ms := (List.nodup_cons.mp hms).1
    have htail : ms.Nodup := (List.nodup_cons.mp hms).2
    rw [List.foldl_cons, ih htail]
    have hfilter : ms.filter (fun m2 =>
        ((deps m2).contains current && list.contains m2) &&
          ((processOne deps list current s0 m).ind m2 - 1 == 0)) =
        ms.filter (fun m2 =>
        ((deps m2).contains current && list.contains m2) && (s0.ind m2 - 1 == 0)) := by
      apply List.filter_congr
      intro m2 hm2
      have hind : (processOne deps list current s0 m).ind m2 = s0.ind m2 := by
        unfold processOne
        split
        · have hne : m2 ≠ m := fun he => hmnotin (he ▸ hm2)
          simp [hne]
        · rfl
      rw [hind]
    rw [hfilter]
    by_cases hp : current ∈ deps m ∧ m ∈ list
    · by_cases hz : s0.ind m - 1 = 0
      · simp [processOne, hp, hz, List.filter_cons, List.append_assoc]
      · simp [processOne, hp, hz, List.filter_cons]
    · simp [processOne, hp, List.filter_cons]

theorem inner_fold_ind (list : List String) (m : String) (ds : List String)
    (ind : String → Int) (x : String) :
    (ds.foldl
      (fun ind2 d =>
        if list.contains d then fun y => if y = m then ind2 y + 1 else ind2 y
        else ind2) ind) x =
      if x = m then ind x + ((ds.filter (fun d => list.contains d)).length : Int)
      else ind x := by
  induction ds generalizing ind with
  | nil => simp
  | cons d ds ih =>
    rw [List.foldl_cons, ih]
    by_cases hd : d ∈ list
    · by_cases hx : x = m
      · subst hx
        simp [hd, List.filter_cons]
        ring
      · simp [hd, hx, List.filter_cons]
    · by_cases hx : x = m
      · subst hx
        simp [hd, List.filter_cons]
      · simp [hd, hx, List.filter_cons]

theorem buildInd_fold (deps : String → List String) (list : List String)
    (ms : List String) (hms : ms.Nodup) (ind0 : String → Int) (x : String) :
    (ms.foldl
      (fun ind m =>
        (deps m).foldl
          (fun ind2 d =>
            if list.contains d then fun y => if y = m then ind2 y + 1 else ind2 y
            else ind2) ind) ind0) x =
      if x ∈ ms then ind0 x + (occIn deps list x : Int) else ind0 x := by
  induction ms generalizing ind0 with
  | nil => simp
  | cons m ms ih =>
    have hmnotin : m ∉ ms := (List.nodup_cons.mp hms).1
    have htail : ms.Nodup := (List.nodup_cons.mp hms).2
    rw [List.foldl_cons, ih htail]
    by_cases hxms : x ∈ ms
    · have hxm : x ≠ m := fun he => hmnotin (he ▸ hxms)
      rw [inner_fold_ind]
      simp [hxms, hxm, List.mem_cons]
    · by_cases hxm : x = m
      · subst hxm
        rw [inner_fold_ind]
        simp [hxms, occIn]
      · rw [inner_fold_ind]
        simp [hxms, hxm, List.mem_cons]

theorem buildInd_eq (deps : String → List String) (list : List String)
    (hnd : list.Nodup) (x : String) :
    buildInd deps list x = if x ∈ list then (occIn deps list x : Int) else 0 := by
  unfold buildInd
  rw [buildInd_fold deps list list hnd (fun _ => 0) x]
  split <;> simp

/-- The initial Kahn state satisfies the invariant. -/
theorem kinv_init (deps : String → List String) (list : List String)
    (hnd : list.Nodup) :
    KInv deps list
      { queue := list.filter (fun m => buildInd deps list m == 0),
        ind := buildInd deps list, result := [] } := by
  constructor
  · simpa using hnd.filter _
  · intro m hm
    cases hm
  · intro m hm
    exact List.mem_of_mem_filter hm
  · intro m hm
    show buildInd deps list m = _
    rw [buildInd_eq deps list hnd]
    simp [hm]
  · intro m hm
    constructor
    · intro h
      rcases h with h | h
      · cases h
      · have := List.of_mem_filter h
        simpa using this
    · intro h
      refine Or.inr (List.mem_filter.mpr ⟨hm, by simpa using h⟩)
  · intro q hq
    have h0 : buildInd deps list q = 0 := by
      have := List.of_mem_filter hq
      simpa using this
    have hql : q ∈ list := List.mem_of_mem_filter hq
    rw [buildInd_eq deps list hnd, if_pos hql] at h0
    have hocc : occIn deps list q = 0 := by exact_mod_cast h0
    intro d hd hdl
    exfalso
    have hdf : d ∈ (deps q).filter (fun d => list.contains d) :=
      List.mem_filter.mpr ⟨hd, by simpa using hdl⟩
    rw [occIn, List.length_eq_zero] at hocc
    rw [hocc] at hdf
    cases hdf
  · intro m hm
    cases hm

/-- One iteration of the `while queue:` loop preserves the invariant. -/
theorem kinv_step (deps : String → List String) (list : List String)
    (hnd : list.Nodup) (s : KState) (hinv : KInv deps list s)
    (current : String) (rest : List String) (hq : s.queue = current :: rest) :
    KInv deps list (stepDecs deps list current
      { queue := rest, ind := s.ind, result := s.result ++ [current] }) := by
  have hres : (stepDecs deps list current
      { queue := rest, ind := s.ind, result := s.result ++ [current] }).result =
      s.result ++ [current] :=
    foldl_processOne_result_eq deps list current list _
  have hindc : ∀ x, (stepDecs deps list current
      { queue := rest, ind := s.ind, result := s.result ++ [current] }).ind x =
      if x ∈ list ∧ ((deps x).contains current && list.contains x) = true
      then s.ind x - 1 else s.ind x :=
    fun x => foldl_processOne_ind deps list current list hnd _ x
  have hqc : (stepDecs deps list current
      { queue := rest, ind := s.ind, result := s.result ++ [current] }).queue =
      rest ++ list.filter (fun m =>
        ((deps m).contains current && list.contains m) && (s.ind m - 1 == 0)) :=
    foldl_processOne_queue deps list current list hnd _
  -- shape facts about the old state
  have hcl : current ∈ list := hinv.subQ current (by rw [hq]; exact List.mem_cons_self _ _)
  have hbig : (s.result ++ current :: rest).Nodup := by
    have := hinv.nodupRQ; rwa [hq] at this
  have hRnd : s.result.Nodup := (List.nodup_append.mp hbig).1
  have hcrnd : (current :: rest).Nodup := (List.nodup_append.mp hbig).2.1
  have hdisj : s.result.Disjoint (current :: rest) := (List.nodup_append.mp hbig).2.2
  have hcur_notR : current ∉ s.result := fun h => hdisj h (List.mem_cons_self _ _)
  have hcur_notrest : current ∉ rest := (List.nodup_cons.mp hcrnd).1
  have hrest_nd : rest.Nodup := (List.nodup_cons.mp hcrnd).2
  have hR1nd : (s.result ++ [current]).Nodup := by
    rw [List.nodup_append]
    exact ⟨hRnd, List.nodup_singleton _,
      fun a ha hb => hcur_notR ((List.mem_singleton.mp hb) ▸ ha)⟩
  have hR1sub : ∀ r ∈ s.result ++ [current], r ∈ list := by
    intro r hr
    rcases List.mem_append.mp hr with h | h
    · exact hinv.subR r h
    · exact (List.mem_singleton.mp h) ▸ hcl
  -- membership in the newly enqueued block
  have hnew_prop : ∀ m ∈ list.filter (fun m =>
      ((deps m).contains current && list.contains m) && (s.ind m - 1 == 0)),
      current ∈ deps m ∧ m ∈ list ∧ s.ind m = 1 := by
    intro m hm
    have h1 := List.of_mem_filter hm
    have h2 := List.mem_of_mem_filter hm
    simp only [Bool.and_eq_true, beq_iff_eq, List.contains_eq_any_beq] at h1
    obtain ⟨⟨ha, _⟩, hz⟩ := h1
    refine ⟨?_, h2, by omega⟩
    simpa using ha
  have hnew_fresh : ∀ m ∈ list.filter (fun m =>
      ((deps m).contains current && list.contains m) && (s.ind m - 1 == 0)),
      m ∉ s.result ∧ m ∉ current :: rest := by
    intro m hm
    obtain ⟨_, hml, hone⟩ := hnew_prop m hm
    have hnz : ¬(m ∈ s.result ∨ m ∈ s.queue) := by
      rw [hinv.zeroIff m hml, hone]
      omega
    push_neg at hnz
    exact ⟨hnz.1, by rw [← hq]; exact hnz.2⟩
  -- nothing already popped or queued gets decremented
  have hzero_done : ∀ m ∈ list, s.ind m = 0 → DoneDeps deps list s.result m := by
    intro m hm h0
    have he := hinv.indEq m hm
    rw [h0] at he
    refine done_of_popped_eq deps list m s.result hRnd hinv.subR ?_
    omega
  have hold_not_dec : ∀ m ∈ list, (m ∈ s.result ∨ m ∈ s.queue) →
      current ∈ deps m → False := by
    intro m hm hmem hdep
    have h0 := (hinv.zeroIff m hm).mp hmem
    exact hcur_notR (hzero_done m hm h0 current hdep hcl)
  constructor
  case nodupRQ =>
    rw [hres, hqc, List.nodup_append]
    refine ⟨hR1nd, ?_, ?_⟩
    · rw [List.nodup_append]
      refine ⟨hrest_nd, hnd.filter _, ?_⟩
      intro a ha hb
      exact (hnew_fresh a hb).2 (List.mem_cons_of_mem _ ha)
    · intro a ha hb
      rcases List.mem_append.mp hb with h | h
      · rcases List.mem_append.mp ha with h2 | h2
        · exact hdisj h2 (List.mem_cons_of_mem _ h)
        · exact hcur_notrest ((List.mem_singleton.mp h2) ▸ h)
      · rcases List.mem_append.mp ha with h2 | h2
        · exact (hnew_fresh a h).1 h2
        · exact (hnew_fresh a h).2 ((List.mem_singleton.mp h2) ▸ List.mem_cons_self _ _)
  case subR =>
    intro m hm
    rw [hres] at hm
    exact hR1sub m hm
  case subQ =>
    intro m hm
    rw [hqc] at hm
    rcases List.mem_append.mp hm with h | h
    · exact hinv.subQ m (by rw [hq]; exact List.mem_cons_of_mem _ h)
    · exact List.mem_of_mem_filter h
  case indEq =>
    intro m hm
    rw [hindc, hres]
    have hpop : ((s.result ++ [current]).filter (fun r => (deps m).contains r)).length =
        (s.result.filter (fun r => (deps m).contains r)).length +
          (if current ∈ deps m then 1 else 0) := by
      rw [List.filter_append]
      by_cases hdep : current ∈ deps m
      · simp [hdep]
      · simp [hdep]
    by_cases hdep : current ∈ deps m
    · have hcb : (m ∈ list ∧ ((deps m).contains current && list.contains m) = true) := by
        refine ⟨hm, ?_⟩
        simp [hdep, hm]
      rw [if_pos hcb, hinv.indEq m hm, hpop, if_pos hdep]
      push_cast
      ring
    · have hcb : ¬(m ∈ list ∧ ((deps m).contains current && list.contains m) = true) := by
        rintro ⟨_, hb⟩
        simp only [Bool.and_eq_true] at hb
        exact hdep (by simpa using hb.1)
      rw [if_neg hcb, hinv.indEq m hm, hpop, if_neg hdep]
      push_cast
      ring
  case zeroIff =>
    intro m hm
    rw [hres, hqc, hindc]
    by_cases hdep : current ∈ deps m
    · have hcb : (m ∈ list ∧ ((deps m).contains current && list.contains m) = true) := by
        refine ⟨hm, ?_⟩
        simp [hdep, hm]
      rw [if_pos hcb]
      constructor
      · intro hmem
        rcases hmem with h | h
        · rcases List.mem_append.mp h with h2 | h2
          · exact absurd hdep (fun _ => hold_not_dec m hm (Or.inl h2) hdep)
          · have : m = current := List.mem_singleton.mp h2
            exact absurd hdep (fun _ => hold_not_dec m hm
              (Or.inr (by rw [hq, this]; exact List.mem_cons_self _ _)) hdep)
        · rcases List.mem_append.mp h with h2 | h2
          · exact absurd hdep (fun _ => hold_not_dec m hm
              (Or.inr (by rw [hq]; exact List.mem_cons_of_mem _ h2)) hdep)
          · obtain ⟨_, _, hone⟩ := hnew_prop m h2
            omega
      · intro h0
        have hone : s.ind m = 1 := by omega
        refine Or.inr (List.mem_append.mpr (Or.inr ?_))
        refine List.mem_filter.mpr ⟨hm, ?_⟩
        simp [hdep, hm, hone]
    · have hcb : ¬(m ∈ list ∧ ((deps m).contains current && list.contains m) = true) := by
        rintro ⟨_, hb⟩
        simp only [Bool.and_eq_true] at hb
        exact hdep (by simpa using hb.1)
      rw [if_neg hcb]
      have hnotnew : m ∉ list.filter (fun m =>
          ((deps m).contains current && list.contains m) && (s.ind m - 1 == 0)) := by
        intro hmem
        exact hdep (hnew_prop m hmem).1
      rw [← hinv.zeroIff m hm]
      constructor
      · intro hmem
        rcases hmem with h | h
        · rcases List.mem_append.mp h with h2 | h2
          · exact Or.inl h2
          · exact Or.inr (by rw [hq, List.mem_singleton.mp h2]; exact List.mem_cons_self _ _)
        · rcases List.mem_append.mp h with h2 | h2
          · exact Or.inr (by rw [hq]; exact List.mem_cons_of_mem _ h2)
          · exact absurd h2 hnotnew
      · intro hmem
        rcases hmem with h | h
        · exact Or.inl (List.mem_append.mpr (Or.inl h))
        · rw [hq] at h
          rcases List.mem_cons.mp h with h2 | h2
          · exact Or.inl (List.mem_append.mpr (Or.inr (by rw [h2]; exact List.mem_singleton.mpr rfl)))
          · exact Or.inr (List.mem_append.mpr (Or.inl h2))
  case queueDone =>
    intro q hqm
    rw [hres]
    rw [hqc] at hqm
    rcases List.mem_append.mp hqm with h | h
    · intro d hd hdl
      exact List.mem_append.mpr (Or.inl
        (hinv.queueDone q (by rw [hq]; exact List.mem_cons_of_mem _ h) d hd hdl))
    · obtain ⟨hdep, hql, hone⟩ := hnew_prop q h
      have he := hinv.indEq q hql
      rw [hone] at he
      refine done_of_popped_eq deps list q (s.result ++ [current]) hR1nd hR1sub ?_
      rw [List.filter_append]
      have : ([current].filter (fun r => (deps q).contains r)).length = 1 := by
        simp [hdep]
      rw [List.length_append, this]
      omega
  case ordered =>
    intro m hm d hd hdl
    rw [hres] at hm ⊢
    rcases List.mem_append.mp hm with hmR | hmC
    · have hidx := hinv.ordered m hmR d hd hdl
      have hmlt : s.result.indexOf m < s.result.length := List.indexOf_lt_length.mpr hmR
      have hdR : d ∈ s.result := List.indexOf_lt_length.mp (lt_trans hidx hmlt)
      rw [indexOf_append_left d _ _ hdR, indexOf_append_left m _ _ hmR]
      exact hidx
    · have hmc : m = current := List.mem_singleton.mp hmC
      subst hmc
      have hdR : d ∈ s.result :=
        hinv.queueDone m (by rw [hq]; exact List.mem_cons_self _ _) d hd hdl
      rw [indexOf_append_left d _ _ hdR, indexOf_append_self m _ hcur_notR]
      exact List.indexOf_lt_length.mpr hdR

/-- The whole loop preserves the invariant, and fuel `list.length`
always drains the queue. -/
theorem kahnLoop_kinv (deps : String → List String) (list : List String)
    (hnd : list.Nodup) (fuel : Nat) (s : KState) (hinv : KInv deps list s) :
    KInv deps list (kahnLoop deps list fuel s) ∧
      (list.length ≤ fuel + s.result.length →
        (kahnLoop deps list fuel s).queue = []) := by
  induction fuel generalizing s with
  | zero =>
    refine ⟨hinv, fun hlen => ?_⟩
    have hsub : ∀ x ∈ s.result ++ s.queue, x ∈ list := by
      intro x hx
      rcases List.mem_append.mp hx with h | h
      · exact hinv.subR x h
      · exact hinv.subQ x h
    have hle := (hinv.nodupRQ.subperm hsub).length_le
    rw [List.length_append] at hle
    have : s.queue.length = 0 := by
      simp only [kahnLoop] at hlen
      omega
    exact List.length_eq_zero.mp this
  | succ fuel ih =>
    cases hqe : s.queue with
    | nil =>
      have hid : kahnLoop deps list (fuel + 1) s = s := by
        unfold kahnLoop
        rw [hqe]
      rw [hid]
      exact ⟨hinv, fun _ => hqe⟩
    | cons current rest =>
      have hstep := kinv_step deps list hnd s hinv current rest hqe
      have hun : kahnLoop deps list (fuel + 1) s =
          kahnLoop deps list fuel (stepDecs deps list current
            { queue := rest, ind := s.ind, result := s.result ++ [current] }) := by
        conv_lhs => unfold kahnLoop
        rw [hqe]
      rw [hun]
      obtain ⟨h1, h2⟩ := ih _ hstep
      refine ⟨h1, fun hlen => h2 ?_⟩
      have hr : (stepDecs deps list current
          { queue := rest, ind := s.ind, result := s.result ++ [current] }).result =
          s.result ++ [current] :=
        foldl_processOne_result_eq deps list current list _
      rw [hr, List.length_append]
      simp only [List.length_singleton]
      omega

/-- Completeness: with duplicate-free in-list dependencies and an
existing topological order, a drained queue means everything was
popped. -/
theorem kahn_complete (deps : String → List String) (list : List String)
    (_hnd : list.Nodup)
    (hdd : ∀ m ∈ list, ((deps m).filter (fun d => list.contains d)).Nodup)
    (ord : List String) (hord : IsTopoOrder deps list ord)
    (s : KState) (hinv : KInv deps list s) (hq : s.queue = []) :
    ∀ m ∈ list, m ∈ s.result := by
  by_contra hnc
  push_neg at hnc
  obtain ⟨m0, hm0l, hm0r⟩ := hnc
  have hRnd : s.result.Nodup := (List.nodup_append.mp hinv.nodupRQ).1
  have hUne : (list.filter (fun v => decide (v ∉ s.result))).toFinset.Nonempty := by
    refine ⟨m0, ?_⟩
    rw [List.mem_toFinset, List.mem_filter]
    exact ⟨hm0l, by simpa using hm0r⟩
  obtain ⟨u, huU, humin⟩ :=
    (list.filter (fun v => decide (v ∉ s.result))).toFinset.exists_min_image
      (fun v => ord.indexOf v) hUne
  rw [List.mem_toFinset, List.mem_filter] at huU
  obtain ⟨hul, hur'⟩ := huU
  have hur : u ∉ s.result := by simpa using hur'
  have hudone : DoneDeps deps list s.result u := by
    intro d hdm hdl
    by_contra hdnr
    have hdU : d ∈ (list.filter (fun v => decide (v ∉ s.result))).toFinset := by
      rw [List.mem_toFinset, List.mem_filter]
      exact ⟨hdl, by simpa using hdnr⟩
    have hle := humin d hdU
    have hlt := hord.2 u hul d hdm hdl
    omega
  have hpop := popped_eq_of_done deps list u s.result hRnd hinv.subR (hdd u hul) hudone
  have hind0 : s.ind u = 0 := by
    rw [hinv.indEq u hul, hpop]
    ring
  rcases (hinv.zeroIff u hul).mpr hind0 with h | h
  · exact hur h
  · rw [hq] at h
    cases h

/-- C2 (amended): on a distinct module list whose restricted dependency
graph is acyclic (a topological order exists) *and* in which no module
lists the same in-list dependency twice, `_resolve_load_order` returns a
permutation of the list that puts every module strictly after each of
its in-list dependencies. -/
theorem resolve_load_order_topo (deps : String → List String) (list : List String)
    (h1 : list.Nodup)
    (h2 : ∀ m ∈ list, ((deps m).filter (fun d => list.contains d)).Nodup)
    (h3 : ∃ ord, IsTopoOrder deps list ord) :
    IsTopoOrder deps list (resolve_load_order deps list) := by
  obtain ⟨ord, hord⟩ := h3
  obtain ⟨hfin, hqe⟩ := kahnLoop_kinv deps list h1 list.length _ (kinv_init deps list h1)
  have hqnil := hqe (by omega)
  have hcomp := kahn_complete deps list h1 h2 ord hord _ hfin hqnil
  have hRnd : (kahnLoop deps list list.length
      { queue := list.filter (fun m => buildInd deps list m == 0),
        ind := buildInd deps list, result := [] }).result.Nodup :=
    (List.nodup_append.mp hfin.nodupRQ).1
  have hperm : (kahnLoop deps list list.length
      { queue := list.filter (fun m => buildInd deps list m == 0),
        ind := buildInd deps list, result := [] }).result.Perm list :=
    (hRnd.subperm hfin.subR).antisymm (h1.subperm hcomp)
  have hout : resolve_load_order deps list = (kahnLoop deps list list.length
      { queue := list.filter (fun m => buildInd deps list m == 0),
        ind := buildInd deps list, result := [] }).result := by
    unfold resolve_load_order
    rw [if_neg]
    simp only [ne_eq, Decidable.not_not]
    exact hperm.length_eq
  rw [hout]
  refine ⟨hperm, ?_⟩
  intro m hm d hd hdl
  exact hfin.ordered m (hcomp m hm) d hd hdl

/-- C2 (witness): the chain `a → b` resolves to a dependency-respecting
order. -/
theorem resolve_load_order_topo_witness :
    IsTopoOrder depsChain ["a", "b"] (resolve_load_order depsChain ["a", "b"]) :=
  resolve_load_order_topo depsChain ["a", "b"] (by decide) (by decide)
    ⟨["b", "a"], by decide⟩

/-- C2 (counterexample): the in-degree counter counts the duplicated
dependency `a ↦ [b, b]` twice but is decremented once, so on the acyclic
graph `c → a → b` (a topological order exists and the names are
distinct) the returned order `[b, c, a]` places `c` before its
dependency `a` — the claim without the duplicate-free hypothesis is
false. -/
theorem resolve_load_order_topo_counterexample :
    (["c", "a", "b"] : List String).Nodup
    ∧ IsTopoOrder depsDup ["c", "a", "b"] ["b", "a", "c"]
    ∧ ¬ IsTopoOrder depsDup ["c", "a", "b"]
        (resolve_load_order depsDup ["c", "a", "b"]) := by
  refine ⟨by decide, by decide, by decide⟩

/-- C3: on distinct module names `_resolve_load_order` always returns a
permutation of its input — modules in dependency cycles are appended,
not dropped. -/
theorem resolve_load_order_perm (deps : String → List String) (list : List String)
    (h1 : list.Nodup) : (resolve_load_order deps list).Perm list := by
  obtain ⟨hfin, hqe⟩ := kahnLoop_kinv deps list h1 list.length _ (kinv_init deps list h1)
  have hRnd : (kahnLoop deps list list.length
      { queue := list.filter (fun m => buildInd deps list m == 0),
        ind := buildInd deps list, result := [] }).result.Nodup :=
    (List.nodup_append.mp hfin.nodupRQ).1
  have hsubp : List.Subperm (kahnLoop deps list list.length
      { queue := list.filter (fun m => buildInd deps list m == 0),
        ind := buildInd deps list, result := [] }).result list :=
    hRnd.subperm hfin.subR
  have hfilter : (list.filter (fun m => (kahnLoop deps list list.length
      { queue := list.filter (fun m => buildInd deps list m == 0),
        ind := buildInd deps list, result := [] }).result.contains m)).Perm
      (kahnLoop deps list list.length
      { queue := list.filter (fun m => buildInd deps list m == 0),
        ind := buildInd deps list, result := [] }).result := by
    refine ((h1.filter _).subperm ?_).antisymm (hRnd.subperm ?_)
    · intro x hx
      have := List.of_mem_filter hx
      exact List.mem_of_elem_eq_true this
    · intro x hx
      refine List.mem_filter.mpr ⟨hfin.subR x hx, ?_⟩
      simpa using hx
  unfold resolve_load_order
  dsimp only
  split
  · exact (hfilter.symm.append_right _).trans (List.filter_append_perm _ list)
  · rename_i hlen
    simp only [ne_eq, Decidable.not_not] at hlen
    exact hsubp.perm_of_length_le (le_of_eq hlen.symm)

/-- C3 (witness): even with the duplicated dependency (where the order
is wrong) the output is still a permutation of the input. -/
theorem resolve_load_order_perm_witness :
    (resolve_load_order depsDup ["c", "a", "b"]).Perm ["c", "a", "b"] :=
  resolve_load_order_perm depsDup ["c", "a", "b"] (by decide)

/-! ## C6: the dependency parser -/

/-- A line's parsed dependencies match the amended per-line description. -/
theorem lineDeps_eq (rawLine : List Char) :
    lineDeps rawLine = markerNamesAmended rawLine ++ bracketNamesAmended rawLine := by
  unfold lineDeps markerNamesAmended bracketNamesAmended bracketNamesClaimed
  by_cases h1 : depMarker.isPrefixOf (pstrip rawLine)
  · simp [h1]
  · simp only [h1, Bool.false_eq_true, if_false, List.nil_append]
    by_cases h2 : (hasSub "dependencies".toList (pstrip rawLine)
        && hasSub "=".toList (pstrip rawLine)
        && hasSub "[".toList (pstrip rawLine)) = true
    · obtain ⟨⟨hA2, hB2⟩, hC2⟩ :
        (hasSub "dependencies".toList (pstrip rawLine) = true
          ∧ hasSub "=".toList (pstrip rawLine) = true)
          ∧ hasSub "[".toList (pstrip rawLine) = true := by
        simpa [Bool.and_eq_true] using h2
      by_cases h3 : hasSub "self.dependencies".toList (pstrip rawLine) = true
      · simp_all
      · rw [Bool.not_eq_true] at h3
        simp_all
    · rw [Bool.not_eq_true] at h2
      simp only [h2, Bool.false_eq_true, if_false]
      cases hA : hasSub "dependencies".toList (pstrip rawLine) <;>
        cases hB : hasSub "=".toList (pstrip rawLine) <;>
          cases hC : hasSub "[".toList (pstrip rawLine) <;>
            simp_all

/-- C6 (counterexample): the claim reads the marker rule as "the
remainder of the line" and the bracket rule as applying to every
assignment-looking line, but the code deletes *every* marker occurrence
(`str.replace`) and its bracket rule is an `elif` that marker lines
never reach.  On the two-line file

`# DEPENDENCIES: a, # DEPENDENCIES: b`
`# DEPENDENCIES: c, dependencies = [d]`

the code returns `[a, b, c, "dependencies = [d]"]`, missing both the
claimed name `# DEPENDENCIES: b` and the claimed bracket name `d`. -/
theorem get_module_dependencies_counterexample :
    ¬ depClaimHolds (some
      ("# DEPENDENCIES: a, # DEPENDENCIES: b\n# DEPENDENCIES: c, dependencies = [d]").toList) := by
  decide

/-- C6 (amended): `_get_module_dependencies` returns the empty list for
an unreadable file, and its result contains, for each line whose
stripped text starts with `# DEPENDENCIES:`, every non-empty stripped
comma-piece of the line with all marker occurrences deleted, and, for
each other non-instance assignment line containing `dependencies`, `=`
and `[`, every name between the first `[` and the first `]` with quotes
stripped. -/
theorem get_module_dependencies_amended (file : Option (List Char)) :
    depClaimAmendedHolds file := by
  match file with
  | none => rfl
  | some content =>
    intro line hline d hd
    unfold getModuleDependenciesText
    exact List.mem_flatMap.mpr ⟨line, hline, by rw [lineDeps_eq]; exact hd⟩

/-- C6 (witness): the amended containment on a concrete one-line file. -/
theorem get_module_dependencies_amended_witness :
    "b".toList ∈ getModuleDependenciesText "# DEPENDENCIES: a, b".toList :=
  get_module_dependencies_amended (some ("# DEPENDENCIES: a, b".toList))
    ("# DEPENDENCIES: a, b".toList) (by decide) ("b".toList) (by decide)

/-! ## C9: the JSON round-trip, strings -/

theorem hexVal_hexDigitChar (k : Nat) (hk : k < 16) :
    hexVal (hexDigitChar k) = some k := by
  interval_cases k <;> decide

theorem hex4Val_hex4 (n : Nat) (hn : n < 65536) :
    hex4Val (hexDigitChar (n / 4096 % 16)) (hexDigitChar (n / 256 % 16))
      (hexDigitChar (n / 16 % 16)) (hexDigitChar (n % 16)) = some n := by
  rw [hex4Val, hexVal_hexDigitChar _ (Nat.mod_lt _ (by norm_num)),
    hexVal_hexDigitChar _ (Nat.mod_lt _ (by norm_num)),
    hexVal_hexDigitChar _ (Nat.mod_lt _ (by norm_num)),
    hexVal_hexDigitChar _ (Nat.mod_lt _ (by norm_num))]
  simp only [Option.some.injEq]
  omega

theorem parseHex16_single (n : Nat) (r : List Char)
    (h16 : n < 65536) (hno : ¬(0xd800 ≤ n ∧ n ≤ 0xdfff)) :
    parseHex16 (hex4 n ++ r) = consMap (Char.ofNat n) (parseStrBody r) := by
  rw [hex4]
  simp only [List.cons_append, List.nil_append, parseHex16, hex4Val_hex4 n h16]
  rw [if_neg (fun h => hno ⟨h.1, by omega⟩), if_neg (fun h => hno ⟨by omega, h.2⟩)]

theorem parseHex16_pair (n : Nat) (r : List Char)
    (h1 : 0x10000 ≤ n) (h2 : n < 0x110000) :
    parseHex16 (hex4 (0xd800 + (n - 0x10000) / 1024) ++
      ('\\' :: 'u' :: (hex4 (0xdc00 + (n - 0x10000) % 1024) ++ r))) =
      consMap (Char.ofNat n) (parseStrBody r) := by
  have hdiv : (n - 0x10000) / 1024 < 1024 := by
    apply Nat.div_lt_of_lt_mul
    omega
  have hmod : (n - 0x10000) % 1024 < 1024 :=
    Nat.mod_lt _ (by norm_num)
  have hhi : 0xd800 + (n - 0x10000) / 1024 < 65536 := by omega
  have hlo : 0xdc00 + (n - 0x10000) % 1024 < 65536 := by omega
  rw [hex4]
  simp only [List.cons_append, List.nil_append, parseHex16, hex4Val_hex4 _ hhi]
  rw [if_pos (by omega : 0xd800 ≤ 0xd800 + (n - 0x10000) / 1024 ∧
      0xd800 + (n - 0x10000) / 1024 ≤ 0xdbff)]
  rw [show hex4 (0xdc00 + (n - 0x10000) % 1024) ++ r =
    hexDigitChar ((0xdc00 + (n - 0x10000) % 1024) / 4096 % 16) ::
    hexDigitChar ((0xdc00 + (n - 0x10000) % 1024) / 256 % 16) ::
    hexDigitChar ((0xdc00 + (n - 0x10000) % 1024) / 16 % 16) ::
    hexDigitChar ((0xdc00 + (n - 0x10000) % 1024) % 16) :: r from rfl]
  simp only [parseLowSurr, hex4Val_hex4 _ hlo]
  rw [if_pos (by simp)]
  rw [if_pos (by omega : 0xdc00 ≤ 0xdc00 + (n - 0x10000) % 1024 ∧
      0xdc00 + (n - 0x10000) % 1024 ≤ 0xdfff)]
  have harith : 0x10000 + (0xd800 + (n - 0x10000) / 1024 - 0xd800) * 1024 +
      (0xdc00 + (n - 0x10000) % 1024 - 0xdc00) = n := by
    have := Nat.div_add_mod (n - 0x10000) 1024
    omega
  rw [harith]

theorem parseStrBody_escChar (c : Char) (r : List Char) :
    parseStrBody (escChar c ++ r) = consMap c (parseStrBody r) := by
  have hvalid := c.valid
  by_cases h1 : c = '"'
  · subst h1
    show parseStrBody ('\\' :: '"' :: r) = _
    simp [parseStrBody, parseEsc]
  by_cases h2 : c = '\\'
  · subst h2
    show parseStrBody ('\\' :: '\\' :: r) = _
    simp [parseStrBody, parseEsc]
  by_cases h3 : c = '\n'
  · subst h3
    show parseStrBody ('\\' :: 'n' :: r) = _
    simp [parseStrBody, parseEsc]
  by_cases h4 : c = '\t'
  · subst h4
    show parseStrBody ('\\' :: 't' :: r) = _
    simp [parseStrBody, parseEsc]
  by_cases h5 : c = '\x0d'
  · subst h5
    show parseStrBody ('\\' :: 'r' :: r) = _
    simp [parseStrBody, parseEsc]
  by_cases h6 : c = '\x08'
  · subst h6
    show parseStrBody ('\\' :: 'b' :: r) = _
    simp [parseStrBody, parseEsc]
  by_cases h7 : c = '\x0c'
  · subst h7
    show parseStrBody ('\\' :: 'f' :: r) = _
    simp [parseStrBody, parseEsc]
  by_cases h8 : (c.toNat < 0x20 || 0x7e < c.toNat) = true
  · have hesc : escChar c = uEsc c.toNat := by
      simp [escChar, h1, h2, h3, h4, h5, h6, h7, h8]
    rw [hesc]
    have hstep : ∀ t : List Char, parseStrBody ('\\' :: 'u' :: t) = parseHex16 t := by
      intro t
      simp [parseStrBody, parseEsc]
    have htn : c.toNat = c.val.toNat := rfl
    by_cases h9 : c.toNat < 0x10000
    · have hnosur : ¬(0xd800 ≤ c.toNat ∧ c.toNat ≤ 0xdfff) := by
        rcases hvalid with h | ⟨ha, _⟩
        · omega
        · omega
      rw [show uEsc c.toNat = '\\' :: 'u' :: hex4 c.toNat by simp [uEsc, h9]]
      rw [List.cons_append, List.cons_append, hstep,
        parseHex16_single c.toNat r h9 hnosur, Char.ofNat_toNat]
    · have hb : c.toNat < 0x110000 := by
        rcases hvalid with h | ⟨_, hb⟩
        · omega
        · omega
      rw [show uEsc c.toNat = ('\\' :: 'u' :: hex4 (0xd800 + (c.toNat - 0x10000) / 1024)) ++
          ('\\' :: 'u' :: hex4 (0xdc00 + (c.toNat - 0x10000) % 1024)) by simp [uEsc, h9]]
      have hshape : (('\\' :: 'u' :: hex4 (0xd800 + (c.toNat - 0x10000) / 1024)) ++
          ('\\' :: 'u' :: hex4 (0xdc00 + (c.toNat - 0x10000) % 1024))) ++ r =
          '\\' :: 'u' :: (hex4 (0xd800 + (c.toNat - 0x10000) / 1024) ++
          ('\\' :: 'u' :: (hex4 (0xdc00 + (c.toNat - 0x10000) % 1024) ++ r))) := by
        simp [List.append_assoc]
      rw [hshape, hstep, parseHex16_pair c.toNat r (by omega) hb, Char.ofNat_toNat]
  · have hesc : escChar c = [c] := by
      simp [escChar, h1, h2, h3, h4, h5, h6, h7, h8]
    rw [hesc, List.singleton_append]
    rw [parseStrBody]
    rw [if_neg h1, if_neg h2]

theorem parseStrBody_dumps (s : List Char) (rest : List Char) :
    parseStrBody (s.flatMap escChar ++ ('"' :: rest)) = some (s, rest) := by
  induction s with
  | nil =>
    rw [List.flatMap_nil, List.nil_append, parseStrBody, if_pos rfl]
  | cons c cs ih =>
    rw [List.flatMap_cons, List.append_assoc, parseStrBody_escChar, ih]
    rfl

/-! ## C9: numbers and lexical helpers -/

theorem digitChar_toNat (d : Nat) (h : d < 10) : (digitChar d).toNat = 48 + d := by
  interval_cases d <;> decide

theorem isDigitCh_digitChar (d : Nat) (h : d < 10) : isDigitCh (digitChar d) = true := by
  interval_cases d <;> decide

theorem natChars_all_digits (n : Nat) : ∀ c ∈ natChars n, isDigitCh c = true := by
  intro c hc
  rw [natChars, List.mem_reverse] at hc
  obtain ⟨d, hd, rfl⟩ := List.mem_map.mp hc
  exact isDigitCh_digitChar d (Nat.digits_lt_base (by norm_num) hd)

theorem parseDigits_nostart (rest : List Char) (h : noDigitStart rest) :
    parseDigits rest = ([], rest) := by
  cases rest with
  | nil => rfl
  | cons c t =>
    have h2 : isDigitCh c = false := h
    simp [parseDigits, h2]

theorem parseDigits_run (l rest : List Char) (hl : ∀ c ∈ l, isDigitCh c = true)
    (h : noDigitStart rest) :
    parseDigits (l ++ rest) = (l.map (fun c => c.toNat - 48), rest) := by
  induction l with
  | nil => simpa using parseDigits_nostart rest h
  | cons c t ih =>
    rw [List.cons_append]
    simp [parseDigits, hl c (List.mem_cons_self c t),
      ih (fun d hd => hl d (List.mem_cons_of_mem c hd))]

theorem natChars_map_val (n : Nat) :
    (natChars n).map (fun c => c.toNat - 48) = (Nat.digits 10 n).reverse := by
  rw [natChars, List.map_reverse, List.map_map]
  congr 1
  rw [show ((fun c => c.toNat - 48) ∘ digitChar) =
      fun d => (digitChar d).toNat - 48 from rfl]
  conv_rhs => rw [← List.map_id (Nat.digits 10 n)]
  apply List.map_congr_left
  intro d hd
  rw [digitChar_toNat d (Nat.digits_lt_base (by norm_num) hd)]
  simp

theorem digitsVal_natChars (n : Nat) :
    digitsVal ((natChars n).map (fun c => c.toNat - 48)) = n := by
  rw [natChars_map_val, digitsVal, List.reverse_reverse, Nat.ofDigits_digits]

theorem natChars_ne_nil (n : Nat) (h : n ≠ 0) : natChars n ≠ [] := by
  rw [natChars]
  simp [Nat.digits_ne_nil_iff_ne_zero.mpr h]

/-- A digit character is none of the JSON dispatch characters. -/
theorem isDigitCh_facts (c : Char) (h : isDigitCh c = true) :
    c ≠ 'n' ∧ c ≠ 't' ∧ c ≠ 'f' ∧ c ≠ '"' ∧ c ≠ '[' ∧ c ≠ lbrace ∧ c ≠ '-'
      ∧ c ≠ ']' ∧ c ≠ rbrace ∧ c ≠ ',' ∧ isJsonWs c = false := by
  refine ⟨?_, ?_, ?_, ?_, ?_, ?_, ?_, ?_, ?_, ?_, ?_⟩
  all_goals first
    | (intro he; subst he; exact absurd h (by decide))
    | (cases hw : isJsonWs c
       · rfl
       · exfalso
         have : ((c = ' ' ∨ c = '\t') ∨ c = '\n') ∨ c = '\x0d' := by
           simpa [isJsonWs] using hw
         rcases this with ((rfl | rfl) | rfl) | rfl <;> exact absurd h (by decide))

theorem skipWs_cons_nonws (c : Char) (l : List Char) (h : isJsonWs c = false) :
    skipWs (c :: l) = c :: l := by
  simp [skipWs, List.dropWhile_cons, h]

theorem skipWs_cons_space (l : List Char) : skipWs (' ' :: l) = skipWs l := by
  simp [skipWs, List.dropWhile_cons, isJsonWs]

theorem expectLit_append (pat r : List Char) (v : JVal) :
    expectLit pat (pat ++ r) v = some (v, r) := by
  rw [expectLit, if_pos, List.drop_left]
  exact List.isPrefixOf_iff_prefix.mpr (List.prefix_append pat r)

theorem parseVal_space (fuel : Nat) (l : List Char) :
    parseVal fuel (' ' :: l) = parseVal fuel l := by
  cases fuel with
  | zero => simp [parseVal]
  | succ f =>
    simp only [parseVal, skipWs_cons_space]

theorem parseArrItems_space (fuel : Nat) (l : List Char) :
    parseArrItems fuel (' ' :: l) = parseArrItems fuel l := by
  cases fuel with
  | zero => simp [parseArrItems]
  | succ f =>
    simp only [parseArrItems, parseVal_space]

/-! ## C9: serialized shapes -/

theorem dumps_null : dumpsVal .null = ['n', 'u', 'l', 'l'] := by simp [dumpsVal]

theorem dumps_true : dumpsVal (.bool true) = ['t', 'r', 'u', 'e'] := by simp [dumpsVal]

theorem dumps_false : dumpsVal (.bool false) = ['f', 'a', 'l', 's', 'e'] := by
  simp [dumpsVal]

theorem dumps_num (n : Int) : dumpsVal (.num n) = intChars n := by simp [dumpsVal]

theorem dumps_str (s : List Char) : dumpsVal (.str s) = strChars s := by
  simp [dumpsVal]

theorem dumps_arr (xs : List JVal) :
    dumpsVal (.arr xs) = '[' :: (itemsDump xs ++ [']']) := by
  rw [dumpsVal, itemsDump, List.attach_map_val]
  rfl

theorem dumps_obj (fs : List (List Char × JVal)) :
    dumpsVal (.obj fs) = lbrace :: (fieldsDump fs ++ [rbrace]) := by
  rw [dumpsVal, fieldsDump,
    List.attach_map_val fs (fun f => strChars f.1 ++ ':' :: ' ' :: dumpsVal f.2)]
  rfl

theorem intercalate_pair {α : Type} (sep : List α) (a b : List α) (l : List (List α)) :
    List.intercalate sep (a :: b :: l) = a ++ sep ++ List.intercalate sep (b :: l) := by
  simp [List.intercalate, List.intersperse]

theorem itemsDump_single (x : JVal) : itemsDump [x] = dumpsVal x := by
  simp [itemsDump, List.intercalate]

theorem itemsDump_pair (x y : JVal) (t : List JVal) :
    itemsDump (x :: y :: t) = dumpsVal x ++ ',' :: ' ' :: itemsDump (y :: t) := by
  rw [itemsDump, List.map_cons, List.map_cons, intercalate_pair, itemsDump,
    List.map_cons, List.append_assoc]
  rfl

theorem fieldsDump_single (f : List Char × JVal) :
    fieldsDump [f] = strChars f.1 ++ ':' :: ' ' :: dumpsVal f.2 := by
  simp [fieldsDump, List.intercalate]

theorem fieldsDump_pair (f g : List Char × JVal) (t : List (List Char × JVal)) :
    fieldsDump (f :: g :: t) =
      (strChars f.1 ++ ':' :: ' ' :: dumpsVal f.2) ++ ',' :: ' ' :: fieldsDump (g :: t) := by
  rw [fieldsDump, List.map_cons, List.map_cons, intercalate_pair, fieldsDump,
    List.map_cons, List.append_assoc]
  rfl

/-- Every serialized value begins with a distinctive non-whitespace
character (never a closer or a comma). -/
theorem dumps_head (v : JVal) :
    ∃ c t, dumpsVal v = c :: t ∧ isJsonWs c = false ∧ c ≠ ']' ∧ c ≠ rbrace := by
  match v with
  | .null => exact ⟨'n', _, dumps_null, by decide, by decide, by decide⟩
  | .bool true => exact ⟨'t', _, dumps_true, by decide, by decide, by decide⟩
  | .bool false => exact ⟨'f', _, dumps_false, by decide, by decide, by decide⟩
  | .str s => exact ⟨'"', _, dumps_str s, by decide, by decide, by decide⟩
  | .arr xs => exact ⟨'[', _, dumps_arr xs, by decide, by decide, by decide⟩
  | .obj fs => exact ⟨lbrace, _, dumps_obj fs, by decide, by decide, by decide⟩
  | .num (.ofNat 0) => exact ⟨'0', _, dumps_num _, by decide, by decide, by decide⟩
  | .num (.negSucc k) => exact ⟨'-', _, dumps_num _, by decide, by decide, by decide⟩
  | .num (.ofNat (k + 1)) =>
    obtain ⟨c, t, hct⟩ : ∃ c t, natChars (k + 1) = c :: t := by
      cases h : natChars (k + 1) with
      | nil => exact absurd h (natChars_ne_nil _ (by omega))
      | cons c t => exact ⟨c, t, rfl⟩
    have hc : isDigitCh c = true :=
      natChars_all_digits (k + 1) c (by rw [hct]; exact List.mem_cons_self _ _)
    have hf := isDigitCh_facts c hc
    refine ⟨c, t, ?_, hf.2.2.2.2.2.2.2.2.2.2, hf.2.2.2.2.2.2.2.1, hf.2.2.2.2.2.2.2.2.1⟩
    rw [dumps_num]
    show natChars (k + 1) = c :: t
    exact hct

theorem fieldsDump_single_expand (k : List Char) (v : JVal) (rest : List Char) :
    fieldsDump [(k, v)] ++ rest =
      '"' :: (k.flatMap escChar ++ ('"' :: (':' :: ' ' :: (dumpsVal v ++ rest)))) := by
  rw [fieldsDump_single]
  simp [strChars]

theorem fieldsDump_pair_expand (k : List Char) (v : JVal) (g : List Char × JVal)
    (t : List (List Char × JVal)) (rest : List Char) :
    fieldsDump ((k, v) :: g :: t) ++ rest =
      '"' :: (k.flatMap escChar ++ ('"' :: (':' :: ' ' ::
        (dumpsVal v ++ (',' :: ' ' :: (fieldsDump (g :: t) ++ rest)))))) := by
  rw [fieldsDump_pair]
  simp [strChars]

theorem itemsDump_single_expand (x : JVal) (rest : List Char) :
    itemsDump [x] ++ rest = dumpsVal x ++ rest := by
  rw [itemsDump_single]

theorem itemsDump_pair_expand (x y : JVal) (t : List JVal) (rest : List Char) :
    itemsDump (x :: y :: t) ++ rest =
      dumpsVal x ++ (',' :: ' ' :: (itemsDump (y :: t) ++ rest)) := by
  rw [itemsDump_pair]
  simp

theorem skipWs_dumps (v : JVal) (rest : List Char) :
    skipWs (dumpsVal v ++ rest) = dumpsVal v ++ rest := by
  obtain ⟨c, t, hct, hws, _, _⟩ := dumps_head v
  rw [hct, List.cons_append, skipWs_cons_nonws c (t ++ rest) hws]

theorem itemsDump_cons_head (x : JVal) (t : List JVal) :
    ∃ c t2, itemsDump (x :: t) = c :: t2
      ∧ isJsonWs c = false ∧ c ≠ ']' ∧ c ≠ rbrace := by
  obtain ⟨c, t0, hct, hws, h1, h2⟩ := dumps_head x
  cases t with
  | nil => exact ⟨c, t0, by rw [itemsDump_single, hct], hws, h1, h2⟩
  | cons y t' =>
    exact ⟨c, t0 ++ ',' :: ' ' :: itemsDump (y :: t'),
      by rw [itemsDump_pair, hct, List.cons_append], hws, h1, h2⟩

theorem fieldsDump_cons_head (f : List Char × JVal) (t : List (List Char × JVal)) :
    ∃ t2, fieldsDump (f :: t) = '"' :: t2 := by
  obtain ⟨k, v⟩ := f
  cases t with
  | nil =>
    have h := fieldsDump_single_expand k v []
    rw [List.append_nil] at h
    exact ⟨_, h⟩
  | cons g t' =>
    have h := fieldsDump_pair_expand k v g t' []
    rw [List.append_nil] at h
    exact ⟨_, h⟩

theorem jweight_pos (v : JVal) : 1 ≤ jweight v := by
  cases v <;> simp [jweight]

theorem jweightList_pos (xs : List JVal) (h : xs ≠ []) : 1 ≤ jweightList xs := by
  cases xs with
  | nil => exact absurd rfl h
  | cons x t => simp [jweightList]; omega

theorem jweightFields_pos (fs : List (List Char × JVal)) (h : fs ≠ []) :
    1 ≤ jweightFields fs := by
  cases fs with
  | nil => exact absurd rfl h
  | cons f t => simp [jweightFields]; omega

mutual

/-- The fuel bound: a serialized value needs no more fuel than its
length plus one. -/
theorem jweight_le : ∀ v : JVal, jweight v ≤ (dumpsVal v).length + 1
  | .null => by rw [dumps_null]; simp [jweight]
  | .bool b => by cases b <;> simp [jweight, dumps_true, dumps_false]
  | .num n => by simp [jweight]
  | .str s => by simp [jweight]
  | .arr xs => by
    have h := jweightList_le xs
    rw [dumps_arr]
    simp only [jweight, List.length_cons, List.length_append]
    simp at h ⊢
    omega
  | .obj fs => by
    have h := jweightFields_le fs
    rw [dumps_obj]
    simp only [jweight, List.length_cons, List.length_append]
    simp at h ⊢
    omega

theorem jweightList_le : ∀ xs : List JVal, jweightList xs ≤ (itemsDump xs).length + 2
  | [] => by simp [jweightList]
  | [x] => by
    have h := jweight_le x
    rw [itemsDump_single]
    simp only [jweightList]
    omega
  | x :: y :: t => by
    have h := jweight_le x
    have h2 := jweightList_le (y :: t)
    rw [itemsDump_pair]
    simp only [jweightList] at h2
    simp only [jweightList, List.length_append, List.length_cons]
    omega

theorem jweightFields_le :
    ∀ fs : List (List Char × JVal), jweightFields fs ≤ (fieldsDump fs).length + 2
  | [] => by simp [jweightFields]
  | [(k, v)] => by
    have h := jweight_le v
    rw [fieldsDump_single]
    simp only [jweightFields, List.length_append, List.length_cons]
    omega
  | (k, v) :: g :: t => by
    have h := jweight_le v
    have h2 := jweightFields_le (g :: t)
    rw [fieldsDump_pair]
    simp only [jweightFields] at h2
    simp only [jweightFields, List.length_append, List.length_cons]
    omega

end

theorem parseVal_dispatch_neg (f : Nat) (input r : List Char)
    (hsw : skipWs input = '-' :: r) :
    parseVal (f + 1) input = parseNeg r := by
  simp only [parseVal, hsw]
  rfl

theorem parseVal_dispatch_digit (f : Nat) (input r : List Char) (c : Char)
    (hc : isDigitCh c = true) (hsw : skipWs input = c :: r) :
    parseVal (f + 1) input = parsePos c r := by
  obtain ⟨h1, h2, h3, h4, h5, h6, h7, _, _, _, _⟩ := isDigitCh_facts c hc
  simp only [parseVal, hsw]
  rw [if_neg h1, if_neg h2, if_neg h3, if_neg h4, if_neg h5, if_neg h6, if_neg h7, if_pos hc]

theorem noDigitStart_cons (c : Char) (l : List Char) (h : isDigitCh c = false) :
    noDigitStart (c :: l) := h

theorem parseArrBody_close (f : Nat) (r : List Char) :
    parseArrBody f (']' :: r) = some (.arr [], r) := by
  simp only [parseArrBody,
    show skipWs (']' :: r) = ']' :: r from skipWs_cons_nonws _ _ (by decide)]
  rfl

theorem parseObjBody_close (f : Nat) (r : List Char) :
    parseObjBody f (rbrace :: r) = some (.obj [], r) := by
  simp only [parseObjBody,
    show skipWs (rbrace :: r) = rbrace :: r from skipWs_cons_nonws _ _ (by decide)]
  rfl

theorem parseArrBody_items (f : Nat) (input : List Char) (c0 : Char) (t2 : List Char)
    (hin : input = c0 :: t2) (hws0 : isJsonWs c0 = false) (hne0 : c0 ≠ ']') :
    parseArrBody f input = (parseArrItems f input).map fun p => (.arr p.1, p.2) := by
  subst hin
  simp only [parseArrBody, skipWs_cons_nonws _ _ hws0]
  rw [if_neg hne0]

theorem parseObjBody_items (f : Nat) (input : List Char) (c0 : Char) (t2 : List Char)
    (hin : input = c0 :: t2) (hws0 : isJsonWs c0 = false) (hne0 : c0 ≠ rbrace) :
    parseObjBody f input = (parseObjItems f input).map fun p => (.obj p.1, p.2) := by
  subst hin
  simp only [parseObjBody, skipWs_cons_nonws _ _ hws0]
  rw [if_neg hne0]

/-- The parser re-reads everything the serializer emits: the core of the
`json.loads ∘ json.dumps` round trip, proved simultaneously for values,
array items and object members by induction on the fuel. -/
theorem parse_dumps : ∀ fuel : Nat,
    (∀ v input rest, jweight v ≤ fuel → noDigitStart rest →
      skipWs input = dumpsVal v ++ rest →
      parseVal fuel input = some (v, rest))
    ∧ (∀ xs input rest, xs ≠ [] → jweightList xs ≤ fuel → noDigitStart rest →
      skipWs input = itemsDump xs ++ (']' :: rest) →
      parseArrItems fuel input = some (xs, rest))
    ∧ (∀ fs input rest, fs ≠ [] → jweightFields fs ≤ fuel → noDigitStart rest →
      skipWs input = fieldsDump fs ++ (rbrace :: rest) →
      parseObjItems fuel input = some (fs, rest)) := by
  intro fuel
  induction fuel with
  | zero =>
    exact ⟨fun v _ _ hw => absurd hw (by have := jweight_pos v; omega),
      fun xs _ _ hne hw => absurd hw (by have := jweightList_pos xs hne; omega),
      fun fs _ _ hne hw => absurd hw (by have := jweightFields_pos fs hne; omega)⟩
  | succ f ih =>
    obtain ⟨ihP, ihQ, ihR⟩ := ih
    refine ⟨?_, ?_, ?_⟩
    · -- parseVal on a serialized value
      intro v input rest hw hnd hsw
      cases v with
      | null =>
        rw [dumps_null] at hsw
        simp only [List.cons_append, List.nil_append] at hsw
        simp only [parseVal, hsw]
        rw [if_pos trivial]
        exact expectLit_append "ull".toList rest JVal.null
      | bool b =>
        cases b with
        | true =>
          rw [dumps_true] at hsw
          simp only [List.cons_append, List.nil_append] at hsw
          simp only [parseVal, hsw]
          rw [if_pos trivial]
          exact expectLit_append "rue".toList rest (JVal.bool true)
        | false =>
          rw [dumps_false] at hsw
          simp only [List.cons_append, List.nil_append] at hsw
          simp only [parseVal, hsw]
          rw [if_pos trivial]
          exact expectLit_append "alse".toList rest (JVal.bool false)
      | str s =>
        rw [dumps_str, strChars] at hsw
        simp only [List.cons_append, List.append_assoc, List.singleton_append,
          List.nil_append] at hsw
        simp only [parseVal, hsw, parseStrBody_dumps s rest]
        rw [if_pos trivial]
        rfl
      | num n =>
        rw [dumps_num] at hsw
        cases n with
        | ofNat m =>
          cases m with
          | zero =>
            simp only [intChars, List.cons_append, List.nil_append] at hsw
            have hd0 : isDigitCh '0' = true := by decide
            rw [parseVal_dispatch_digit f input rest '0' hd0 hsw]
            have hp : parseDigits ('0' :: rest) = ([0], rest) := by
              simp [parseDigits, parseDigits_nostart rest hnd, hd0]
            simp only [parsePos, hp]
            norm_num [digitsVal, Nat.ofDigits]
          | succ m' =>
            rw [show intChars (Int.ofNat (m' + 1)) = natChars (m' + 1) from rfl] at hsw
            obtain ⟨c0, t0, hnc⟩ : ∃ c0 t0, natChars (m' + 1) = c0 :: t0 := by
              cases h : natChars (m' + 1) with
              | nil => exact absurd h (natChars_ne_nil _ (by omega))
              | cons c0 t0 => exact ⟨c0, t0, rfl⟩
            have hc0 : isDigitCh c0 = true :=
              natChars_all_digits _ c0 (by rw [hnc]; exact List.mem_cons_self _ _)
            rw [hnc, List.cons_append] at hsw
            rw [parseVal_dispatch_digit f input (t0 ++ rest) c0 hc0 hsw]
            have hrun : parseDigits (c0 :: (t0 ++ rest)) =
                ((natChars (m' + 1)).map (fun c => c.toNat - 48), rest) := by
              rw [← List.cons_append, ← hnc]
              exact parseDigits_run _ rest (natChars_all_digits _) hnd
            simp only [parsePos, hrun, digitsVal_natChars]
            rfl
        | negSucc m' =>
          rw [show intChars (Int.negSucc m') = '-' :: natChars (m' + 1) from rfl] at hsw
          rw [List.cons_append] at hsw
          rw [parseVal_dispatch_neg f input (natChars (m' + 1) ++ rest) hsw]
          have hrun := parseDigits_run (natChars (m' + 1)) rest (natChars_all_digits _) hnd
          simp only [parseNeg, hrun]
          rw [if_neg (by
            simp [List.isEmpty_iff, List.map_eq_nil_iff,
              natChars_ne_nil (m' + 1) (Nat.succ_ne_zero m')])]
          rw [digitsVal_natChars]
          have hneg : (Int.negSucc m') = -((m' + 1 : Nat) : Int) := by
            rw [Int.negSucc_eq]
            push_cast
            ring
          rw [hneg]
      | arr xs =>
        rw [dumps_arr] at hsw
        simp only [List.cons_append, List.append_assoc, List.singleton_append,
          List.nil_append] at hsw
        simp only [parseVal, hsw]
        rw [if_neg (by decide), if_neg (by decide), if_neg (by decide),
          if_neg (by decide), if_pos trivial]
        cases xs with
        | nil =>
          rw [show itemsDump ([] : List JVal) = [] from rfl, List.nil_append]
          rw [parseArrBody_close]
        | cons x t =>
          obtain ⟨c0, t2, hc0, hws0, hne0, _⟩ := itemsDump_cons_head x t
          rw [parseArrBody_items f _ c0 (t2 ++ (']' :: rest))
            (by rw [hc0, List.cons_append]) hws0 hne0]
          have hsw2 : skipWs (itemsDump (x :: t) ++ (']' :: rest)) =
              itemsDump (x :: t) ++ (']' :: rest) := by
            rw [hc0, List.cons_append]
            exact skipWs_cons_nonws _ _ hws0
          rw [ihQ (x :: t) _ rest (by simp)
            (by simp only [jweight] at hw; omega) hnd hsw2]
          rfl
      | obj fs =>
        rw [dumps_obj] at hsw
        simp only [List.cons_append, List.append_assoc, List.singleton_append,
          List.nil_append] at hsw
        simp only [parseVal, hsw]
        rw [if_neg (by decide), if_neg (by decide), if_neg (by decide),
          if_neg (by decide), if_neg (by decide), if_pos trivial]
        cases fs with
        | nil =>
          rw [show fieldsDump ([] : List (List Char × JVal)) = [] from rfl, List.nil_append]
          rw [parseObjBody_close]
        | cons f0 t =>
          obtain ⟨t2, ht2⟩ := fieldsDump_cons_head f0 t
          rw [parseObjBody_items f _ '"' (t2 ++ (rbrace :: rest))
            (by rw [ht2, List.cons_append]) (by decide) (by decide)]
          have hsw2 : skipWs (fieldsDump (f0 :: t) ++ (rbrace :: rest)) =
              fieldsDump (f0 :: t) ++ (rbrace :: rest) := by
            rw [ht2, List.cons_append]
            exact skipWs_cons_nonws _ _ (by decide)
          rw [ihR (f0 :: t) _ rest (by simp)
            (by simp only [jweight] at hw; omega) hnd hsw2]
          rfl
    · -- parseArrItems on serialized items
      intro xs input rest hne hw hnd hsw
      cases xs with
      | nil => exact absurd rfl hne
      | cons x t =>
        cases t with
        | nil =>
          rw [itemsDump_single_expand] at hsw
          have h1 := ihP x input (']' :: rest)
            (by simp only [jweightList] at hw; omega)
            (noDigitStart_cons _ _ (by decide)) hsw
          have h2 : skipWs (']' :: rest) = ']' :: rest :=
            skipWs_cons_nonws _ _ (by decide)
          simp only [parseArrItems, h1, h2]
          rfl
        | cons y t' =>
          rw [itemsDump_pair_expand] at hsw
          have h1 := ihP x input (',' :: ' ' :: (itemsDump (y :: t') ++ (']' :: rest)))
            (by simp only [jweightList] at hw; omega)
            (noDigitStart_cons _ _ (by decide)) hsw
          have h2 : skipWs (',' :: ' ' :: (itemsDump (y :: t') ++ (']' :: rest))) =
              ',' :: ' ' :: (itemsDump (y :: t') ++ (']' :: rest)) :=
            skipWs_cons_nonws _ _ (by decide)
          have hsw3 : skipWs (' ' :: (itemsDump (y :: t') ++ (']' :: rest))) =
              itemsDump (y :: t') ++ (']' :: rest) := by
            rw [skipWs_cons_space]
            obtain ⟨c0, t2, hc0, hws0, _, _⟩ := itemsDump_cons_head y t'
            rw [hc0, List.cons_append]
            exact skipWs_cons_nonws _ _ hws0
          have h3 := ihQ (y :: t') (' ' :: (itemsDump (y :: t') ++ (']' :: rest))) rest
            (by simp) (by simp only [jweightList] at hw ⊢; omega) hnd hsw3
          simp only [parseArrItems, h1, h2, h3]
          rfl
    · -- parseObjItems on serialized members
      intro fs input rest hne hw hnd hsw
      cases fs with
      | nil => exact absurd rfl hne
      | cons f0 t =>
        obtain ⟨k, v⟩ := f0
        cases t with
        | nil =>
          rw [fieldsDump_single_expand] at hsw
          have hstr := parseStrBody_dumps k (':' :: ' ' :: (dumpsVal v ++ (rbrace :: rest)))
          have h2 : skipWs (':' :: ' ' :: (dumpsVal v ++ (rbrace :: rest))) =
              ':' :: ' ' :: (dumpsVal v ++ (rbrace :: rest)) :=
            skipWs_cons_nonws _ _ (by decide)
          have hv := ihP v (' ' :: (dumpsVal v ++ (rbrace :: rest))) (rbrace :: rest)
            (by simp only [jweightFields] at hw; omega)
            (noDigitStart_cons _ _ (by decide))
            (by rw [skipWs_cons_space]; exact skipWs_dumps v _)
          have h4 : skipWs (rbrace :: rest) = rbrace :: rest :=
            skipWs_cons_nonws _ _ (by decide)
          simp only [parseObjItems, hsw, hstr, h2, hv, h4]
          rfl
        | cons g t' =>
          rw [fieldsDump_pair_expand] at hsw
          have hstr := parseStrBody_dumps k
            (':' :: ' ' :: (dumpsVal v ++ (',' :: ' ' ::
              (fieldsDump (g :: t') ++ (rbrace :: rest)))))
          have h2 : skipWs (':' :: ' ' :: (dumpsVal v ++ (',' :: ' ' ::
              (fieldsDump (g :: t') ++ (rbrace :: rest))))) =
              ':' :: ' ' :: (dumpsVal v ++ (',' :: ' ' ::
                (fieldsDump (g :: t') ++ (rbrace :: rest)))) :=
            skipWs_cons_nonws _ _ (by decide)
          have hv := ihP v (' ' :: (dumpsVal v ++ (',' :: ' ' ::
              (fieldsDump (g :: t') ++ (rbrace :: rest)))))
            (',' :: ' ' :: (fieldsDump (g :: t') ++ (rbrace :: rest)))
            (by simp only [jweightFields] at hw; omega)
            (noDigitStart_cons _ _ (by decide))
            (by rw [skipWs_cons_space]; exact skipWs_dumps v _)
          have h4 : skipWs (',' :: ' ' :: (fieldsDump (g :: t') ++ (rbrace :: rest))) =
              ',' :: ' ' :: (fieldsDump (g :: t') ++ (rbrace :: rest)) :=
            skipWs_cons_nonws _ _ (by decide)
          have hsw5 : skipWs (' ' :: (fieldsDump (g :: t') ++ (rbrace :: rest))) =
              fieldsDump (g :: t') ++ (rbrace :: rest) := by
            rw [skipWs_cons_space]
            obtain ⟨t2, ht2⟩ := fieldsDump_cons_head g t'
            rw [ht2, List.cons_append]
            exact skipWs_cons_nonws _ _ (by decide)
          have hre := ihR (g :: t') (' ' :: (fieldsDump (g :: t') ++ (rbrace :: rest))) rest
            (by simp) (by simp only [jweightFields] at hw ⊢; omega) hnd hsw5
          simp only [parseObjItems, hsw, hstr, h2, hv, h4, hre]
          rfl

/-- `json.loads(json.dumps(v)) == v` for every JSON-representable value. -/
theorem loads_dumps (v : JVal) : json_loads (json_dumps v) = some v := by
  have h := (parse_dumps ((dumpsVal v).length + 1)).1 v (dumpsVal v) []
    (jweight_le v) trivial (by simpa using skipWs_dumps v [])
  simp only [json_loads, json_dumps, h]
  rfl

/-! ## C9: the `module_data` table -/

theorem find?_key_cons_pos (r : DKey × List Char) (t : Db) (kk : DKey)
    (h : (r.1 == kk) = true) :
    (r :: t).find? (fun x => x.1 == kk) = some r :=
  List.find?_cons_of_pos t h

theorem find?_key_cons_neg (r : DKey × List Char) (t : Db) (kk : DKey)
    (h : (r.1 == kk) = false) :
    (r :: t).find? (fun x => x.1 == kk) = t.find? (fun x => x.1 == kk) :=
  List.find?_cons_of_neg t (by simp [h])

theorem find?_upsert_map (l : Db) (kk : DKey) (w : List Char)
    (h : l.any (fun r => r.1 == kk) = true) :
    (l.map (fun r => if r.1 == kk then (kk, w) else r)).find? (fun r => r.1 == kk) =
      some (kk, w) := by
  induction l with
  | nil => simp at h
  | cons r t ih =>
    simp only [List.map_cons]
    by_cases hr : (r.1 == kk) = true
    · rw [if_pos hr, find?_key_cons_pos (kk, w) _ kk (by simp)]
    · have hr' : (r.1 == kk) = false := by simpa using hr
      rw [if_neg hr, find?_key_cons_neg r _ kk hr']
      apply ih
      rw [List.any_cons, hr'] at h
      simpa using h

theorem find?_append_new (l : Db) (kk : DKey) (w : List Char)
    (h : l.any (fun r => r.1 == kk) = false) :
    (l ++ [(kk, w)]).find? (fun r => r.1 == kk) = some (kk, w) := by
  induction l with
  | nil =>
    rw [List.nil_append]
    exact find?_key_cons_pos (kk, w) [] kk (by simp)
  | cons r t ih =>
    rw [List.any_cons, Bool.or_eq_false_iff] at h
    rw [List.cons_append, find?_key_cons_neg r _ kk h.1, ih h.2]

theorem find?_set_self (db : Db) (m s k : String) (v : JVal) :
    (set_module_data db m s k v).find? (fun r => r.1 == (m, s, k)) =
      some ((m, s, k), json_dumps v) := by
  simp only [set_module_data]
  by_cases h : db.any (fun r => r.1 == (m, s, k)) = true
  · rw [if_pos h]
    exact find?_upsert_map db (m, s, k) (json_dumps v) h
  · rw [if_neg h]
    have h' : db.any (fun r => r.1 == (m, s, k)) = false := by
      cases hb : db.any (fun r => r.1 == (m, s, k)) with
      | true => exact absurd hb h
      | false => rfl
    exact find?_append_new db (m, s, k) (json_dumps v) h'

theorem get_after_set (db : Db) (m s k : String) (v d : JVal) :
    get_module_data (set_module_data db m s k v) m s k d = .ok v := by
  simp only [get_module_data, find?_set_self, loads_dumps]

theorem find?_filter_of_imp (p q : DKey × List Char → Bool) (l : Db)
    (h : ∀ r, p r = true → q r = true) :
    (l.filter q).find? p = l.find? p := by
  induction l with
  | nil => rfl
  | cons r t ih =>
    by_cases hq : q r = true
    · rw [List.filter_cons_of_pos hq]
      by_cases hp : p r = true
      · rw [List.find?_cons_of_pos _ hp, List.find?_cons_of_pos _ hp]
      · rw [List.find?_cons_of_neg _ hp, List.find?_cons_of_neg _ hp]
        exact ih
    · have hp : ¬ p r = true := fun hpc => hq (h r hpc)
      rw [List.filter_cons_of_neg hq, List.find?_cons_of_neg _ hp]
      exact ih

theorem find?_map_frame (l : Db) (kk kk' : DKey) (w : List Char)
    (hne : (kk' == kk) = false) :
    (l.map (fun r => if r.1 == kk' then (kk', w) else r)).find? (fun r => r.1 == kk) =
      l.find? (fun r => r.1 == kk) := by
  induction l with
  | nil => rfl
  | cons r t ih =>
    simp only [List.map_cons]
    by_cases hr : (r.1 == kk') = true
    · have hr' : r.1 = kk' := by simpa using hr
      rw [if_pos hr, find?_key_cons_neg (kk', w) _ kk hne,
        find?_key_cons_neg r _ kk (by rw [hr']; exact hne), ih]
    · rw [if_neg hr]
      by_cases hp : (r.1 == kk) = true
      · rw [find?_key_cons_pos r _ kk hp, find?_key_cons_pos r _ kk hp]
      · have hp' : (r.1 == kk) = false := by simpa using hp
        rw [find?_key_cons_neg r _ kk hp', find?_key_cons_neg r _ kk hp', ih]

theorem find?_append_frame (l : Db) (row : DKey × List Char) (kk : DKey)
    (h : (row.1 == kk) = false) :
    (l ++ [row]).find? (fun r => r.1 == kk) = l.find? (fun r => r.1 == kk) := by
  induction l with
  | nil =>
    rw [List.nil_append, find?_key_cons_neg row [] kk h]
  | cons r t ih =>
    rw [List.cons_append]
    by_cases hp : (r.1 == kk) = true
    · rw [find?_key_cons_pos r _ kk hp, find?_key_cons_pos r _ kk hp]
    · have hp' : (r.1 == kk) = false := by simpa using hp
      rw [find?_key_cons_neg r _ kk hp', find?_key_cons_neg r _ kk hp', ih]

theorem find?_applyOp_frame (db : Db) (op : DbOp) (m s k : String)
    (h : opTouches m s k op = false) :
    (applyOp db op).find? (fun r => r.1 == (m, s, k)) =
      db.find? (fun r => r.1 == (m, s, k)) := by
  cases op with
  | set m' s' k' v =>
    have hne : ((m', s', k') == (m, s, k)) = false := by
      cases hb : (((m', s', k') : DKey) == (m, s, k)) with
      | false => rfl
      | true =>
        exfalso
        obtain ⟨e1, e2, e3⟩ : m' = m ∧ s' = s ∧ k' = k := by
          simpa [Prod.ext_iff] using hb
        rw [e1, e2, e3] at h
        simp [opTouches] at h
    simp only [applyOp, set_module_data]
    by_cases hany : db.any (fun r => r.1 == (m', s', k')) = true
    · rw [if_pos hany]
      exact find?_map_frame db (m, s, k) (m', s', k') (json_dumps v) hne
    · rw [if_neg hany]
      exact find?_append_frame db ((m', s', k'), json_dumps v) (m, s, k) hne
  | del m' s' key =>
    cases key with
    | some k' =>
      by_cases hk : k'.isEmpty = true
      · -- `if key:` is falsy for the empty string: module/server-wide delete
        have h' : ((m' : String) == m && (s' : String) == s) = false := by
          have h2 := h
          simp only [opTouches] at h2
          rwa [if_pos hk] at h2
        simp only [applyOp, delete_module_data, if_pos hk]
        apply find?_filter_of_imp
        intro r hp
        have hr : r.1 = (m, s, k) := by simpa using hp
        rw [hr]
        show (!((m : String) == m' && (s : String) == s')) = true
        cases hb : ((m : String) == m' && (s : String) == s') with
        | false => rfl
        | true =>
          exfalso
          obtain ⟨e1, e2⟩ : m = m' ∧ s = s' := by simpa using hb
          rw [← e1, ← e2] at h'
          simp at h'
      · simp only [applyOp, delete_module_data, if_neg hk]
        apply find?_filter_of_imp
        intro r hp
        have hr : r.1 = (m, s, k) := by simpa using hp
        rw [hr]
        cases hb : (((m, s, k) : DKey) == (m', s', k')) with
        | false => rfl
        | true =>
          exfalso
          obtain ⟨e1, e2, e3⟩ : m = m' ∧ s = s' ∧ k = k' := by
            simpa [Prod.ext_iff] using hb
          rw [← e1, ← e2, ← e3] at h
          simp [opTouches] at h
    | none =>
      simp only [applyOp, delete_module_data]
      apply find?_filter_of_imp
      intro r hp
      have hr : r.1 = (m, s, k) := by simpa using hp
      rw [hr]
      show (!((m : String) == m' && (s : String) == s')) = true
      cases hb : ((m : String) == m' && (s : String) == s') with
      | false => rfl
      | true =>
        exfalso
        obtain ⟨e1, e2⟩ : m = m' ∧ s = s' := by simpa using hb
        rw [← e1, ← e2] at h
        simp [opTouches] at h

theorem find?_applyOps_frame (ops : List DbOp) (db : Db) (m s k : String)
    (h : ∀ op ∈ ops, opTouches m s k op = false) :
    (applyOps db ops).find? (fun r => r.1 == (m, s, k)) =
      db.find? (fun r => r.1 == (m, s, k)) := by
  induction ops generalizing db with
  | nil => rfl
  | cons op rest ih =>
    rw [show applyOps db (op :: rest) = applyOps (applyOp db op) rest from rfl]
    rw [ih (applyOp db op) (fun o ho => h o (List.mem_cons_of_mem _ ho))]
    exact find?_applyOp_frame db op m s k (h op (List.mem_cons_self _ _))

theorem get_after_delete_aux (db : Db) (m s k : String) (d : JVal) :
    get_module_data (delete_module_data db m s (some k)) m s k d = .ok d := by
  have hnone : (delete_module_data db m s (some k)).find?
      (fun r => r.1 == (m, s, k)) = none := by
    apply List.find?_eq_none.mpr
    intro x hx
    by_cases hk : k.isEmpty = true
    · simp only [delete_module_data, if_pos hk] at hx
      have hq := (List.mem_filter.mp hx).2
      intro hp
      have hx1 : x.1 = (m, s, k) := by simpa using hp
      rw [hx1] at hq
      simp at hq
    · simp only [delete_module_data, if_neg hk] at hx
      have hq := (List.mem_filter.mp hx).2
      simp at hq ⊢
      exact hq
  simp only [get_module_data, hnone]

/-- C9: for every module name, server id, key and JSON-representable
value `v`, `get_module_data` called after `set_module_data` of `v` —
with any intervening operations that do not overwrite or delete that
`(module, server, key)` triple — returns `v` (the full
`json.dumps`/`json.loads` round trip through the TEXT column); a triple
that has no row returns the caller-supplied default, as does a triple
that was just deleted. -/
theorem module_data_storage_spec (db : Db) (m s k : String) (v d : JVal)
    (ops : List DbOp) (hops : ∀ op ∈ ops, opTouches m s k op = false) :
    get_module_data (applyOps (set_module_data db m s k v) ops) m s k d = .ok v
    ∧ (db.find? (fun r => r.1 == (m, s, k)) = none →
        get_module_data db m s k d = .ok d)
    ∧ get_module_data (delete_module_data db m s (some k)) m s k d = .ok d := by
  refine ⟨?_, ?_, get_after_delete_aux db m s k d⟩
  · have hf := find?_applyOps_frame ops (set_module_data db m s k v) m s k hops
    rw [find?_set_self] at hf
    simp only [get_module_data, hf, loads_dumps]
  · intro hnone
    simp only [get_module_data, hnone]

/-- Witness: the round trip at a concrete database, value and
non-touching operation list. -/
theorem module_data_storage_spec_witness :
    (∀ op ∈ c9Ops, opTouches "quotes" "42" "list" op = false)
    ∧ get_module_data (applyOps (set_module_data [] "quotes" "42" "list" c9Val) c9Ops)
        "quotes" "42" "list" .null = .ok c9Val :=
  ⟨by decide, (module_data_storage_spec [] "quotes" "42" "list" c9Val .null c9Ops
    (by decide)).1⟩

end Bark
